import Mathlib

/-!
Verification of the directory-listing tool of the smolcc repository
(`src/smolcc/tools/ls_tool.py`, class `LSTool`).

Shallow embedding conventions:
* Python strings are embedded as `List Char` (`Str`); string literals enter
  through `strOf`.  The host OS is POSIX, so `os.path.sep = '/'` and
  `path.replace(os.path.sep, '/')` and `os.path.normcase` are the identity.
* The filesystem subtree rooted at the argument path is embedded as the
  inductive `FS`: `file` is a non-directory entry, `dir` a listable directory
  with its children, and `dirFail` a directory for which `os.listdir` raises
  `PermissionError` or `FileNotFoundError` (it vanished or is unreadable).
  The tree is the (static) state of the filesystem during the one call.
* `forward` takes the resolution of its path argument as an `Option FS`:
  `none` when `os.path.exists` is false, `some node` otherwise.  The path is
  taken as already absolute (the claims speak about the resolved path).
* The `while` loop of `_list_directory` is embedded with a fuel parameter;
  `listDirectory` supplies `FS.size fs` fuel, which dominates the number of
  iterations (every dequeued element is a distinct node of the tree).
-/

abbrev Str := List Char

def strOf (s : String) : Str := s.data

/-- MAX_FILES = 1000 (ls_tool.py line 14). -/
def MAX_FILES : Nat := 1000

/-- TRUNCATED_MESSAGE (ls_tool.py line 15), with the f-string already rendered. -/
def TRUNCATED_MESSAGE : Str := strOf "There are more than 1000 files in the repository. Use the LS tool (passing a specific path), Bash tool, and other tools to explore nested directories. The first 1000 files and directories are included below:\n\n"

/-- `p.rstrip(os.path.sep)`: remove all trailing `'/'` characters. -/
def rstripSlash (p : Str) : Str := (p.reverse.dropWhile (fun c => c == '/')).reverse

/-- `os.path.basename p`: everything after the last `'/'`. -/
def basenameOf (p : Str) : Str := (p.reverse.takeWhile (fun c => c != '/')).reverse

/-- `p.endswith('/')`. -/
def endsSlash (p : Str) : Bool := p.getLast? == some '/'

/-- `os.path.join p item` for a bare (relative, non-empty) entry name `item`. -/
def pjoin (p item : Str) : Str :=
  if p = [] ∨ endsSlash p then p ++ item else p ++ '/' :: item

/-- `os.path.relpath p start` for the only case the tool hits: `p` equal to
`start` or lying strictly under it (every queue element is built by `pjoin`
from the initial path). -/
def relpathUnder (p start : Str) : Str :=
  if p = start then ['.']
  else if endsSlash start then p.drop start.length else p.drop (start.length + 1)

/-- Does the second list begin with the first one? -/
def leadsWith : Str → Str → Bool
  | [], _ => true
  | _ :: _, [] => false
  | a :: as, b :: bs => a == b && leadsWith as bs

/-- Python `sub in p` (substring containment). -/
def hasSub : Str → Str → Bool
  | [], sub => sub.isEmpty
  | c :: rest, sub => leadsWith sub (c :: rest) || hasSub rest sub

/-- Scan a glob character class up to the closing `']'`
(`fnmatch.translate`'s bracket scan). -/
def splitClass : Str → Option (Str × Str)
  | [] => none
  | ']' :: rest => some ([], rest)
  | c :: rest =>
    match splitClass rest with
    | some (a, b) => some (c :: a, b)
    | none => none

/-- Parse a glob class body after `'['`: an optional leading `'!'` negation,
then a literal `']'` is allowed as first member (`fnmatch.translate`). -/
def parseClass : Str → Option (Bool × Str × Str)
  | '!' :: ']' :: rest => (splitClass rest).map (fun x => (true, ']' :: x.1, x.2))
  | '!' :: rest => (splitClass rest).map (fun x => (true, x.1, x.2))
  | ']' :: rest => (splitClass rest).map (fun x => (false, ']' :: x.1, x.2))
  | rest => (splitClass rest).map (fun x => (false, x.1, x.2))

/-- Membership of a character in a glob class body, with `a-b` ranges
(a dash first or last is a literal, an inverted range matches nothing). -/
def inClass : Str → Char → Bool
  | [], _ => false
  | a :: '-' :: b :: rest, c => (a.toNat ≤ c.toNat && c.toNat ≤ b.toNat) || inClass rest c
  | a :: rest, c => a == c || inClass rest c

/-- Glob matching of `fnmatch.fnmatchcase`, pattern first: `'*'` matches any
sequence of characters (separators included), `'?'` any single character,
`'[...]'` a class, an unterminated `'['` is a literal.  The fuel argument
dominates `pattern.length + s.length`, which strictly decreases at each
recursive call. -/
def fnmatchF : Nat → Str → Str → Bool
  | 0, _, _ => false
  | _ + 1, [], s => s.isEmpty
  | fuel + 1, '*' :: ps, s =>
      fnmatchF fuel ps s ||
        (match s with
         | [] => false
         | _ :: cs => fnmatchF fuel ('*' :: ps) cs)
  | fuel + 1, '?' :: ps, s =>
      (match s with
       | [] => false
       | _ :: cs => fnmatchF fuel ps cs)
  | fuel + 1, '[' :: ps, s =>
      (match parseClass ps with
       | some (neg, cls, rest) =>
         (match s with
          | [] => false
          | c :: cs => (if neg then !(inClass cls c) else inClass cls c) && fnmatchF fuel rest cs)
       | none =>
         (match s with
          | [] => false
          | c :: cs => (c == '[') && fnmatchF fuel ps cs))
  | fuel + 1, p :: ps, s =>
      (match s with
       | [] => false
       | c :: cs => (p == c) && fnmatchF fuel ps cs)

/-- `fnmatch.fnmatch nm pat` (POSIX: `normcase` is the identity). -/
def fnmatch (nm pat : Str) : Bool := fnmatchF (pat.length + nm.length + 1) pat nm

def PYCACHE : Str := strOf "__pycache__"

/-- `basename.startswith('.') and basename != '.'` (ls_tool.py line 139). -/
def hiddenName (basename : Str) : Bool :=
  (basename.head? == some '.') && basename != ['.']

/-- `LSTool._should_skip` (ls_tool.py lines 125-150). -/
def shouldSkip (p : Str) (ignorePatterns : List Str) : Bool :=
  let basename := basenameOf (rstripSlash p)
  hiddenName basename
  || (basename == PYCACHE || hasSub p (PYCACHE ++ ['/']))
  || ignorePatterns.any (fun pat => fnmatch p pat)

/-- Python string comparison (`<`): lexicographic by code point. -/
def strLtL : Str → Str → Bool
  | [], [] => false
  | [], _ :: _ => true
  | _ :: _, [] => false
  | a :: as, b :: bs => a.toNat < b.toNat || (a == b && strLtL as bs)

def strLeL (a b : Str) : Bool := !(strLtL b a)

/-- Stable insertion into a sorted list (before the first element not below). -/
def insertLe (le : α → α → Bool) (a : α) : List α → List α
  | [] => [a]
  | b :: bs => if le a b then a :: b :: bs else b :: insertLe le a bs

/-- Stable insertion sort; embeds Python `list.sort()` (ascending, stable). -/
def isort (le : α → α → Bool) : List α → List α
  | [] => []
  | a :: as => insertLe le a (isort le as)

/-- One filesystem entry.  `dirFail` is a directory (`os.path.isdir` true)
whose `os.listdir` raises `PermissionError` or `FileNotFoundError`. -/
inductive FS where
  | file (name : Str)
  | dirFail (name : Str)
  | dir (name : Str) (children : List FS)

def FS.name : FS → Str
  | .file n => n
  | .dirFail n => n
  | .dir n _ => n

/-- `os.path.isdir`. -/
def FS.isDir : FS → Bool
  | .file _ => false
  | .dirFail _ => true
  | .dir _ _ => true

mutual
/-- Number of nodes of the tree (used as loop fuel). -/
def FS.size : FS → Nat
  | .file _ => 1
  | .dirFail _ => 1
  | .dir _ cs => 1 + FS.sizeL cs
def FS.sizeL : List FS → Nat
  | [] => 0
  | c :: cs => FS.size c + FS.sizeL cs
end

/-- Children pushed for one dequeued directory (ls_tool.py lines 104-117):
full paths via `os.path.join`, sorted alphabetically, and only those that do
not match the skip predicate are enqueued. -/
def lsStepChildren (pth : Str) (cs : List FS) (ignorePatterns : List Str) : List (Str × FS) :=
  (isort (fun a b => strLeL a.1 b.1) (cs.map (fun c => (pjoin pth c.name, c)))).filter
    (fun e => !shouldSkip e.1 ignorePatterns)

/-- The children enqueued for a dequeued node: those of a readable
directory, nothing for a file (not a directory) or a failing directory
(`os.listdir` raises, the `except` clause continues the loop). -/
def nodeChildren (pth : Str) (ignorePatterns : List Str) : FS → List (Str × FS)
  | .dir _ cs => lsStepChildren pth cs ignorePatterns
  | _ => []

/-- The `while` loop of `LSTool._list_directory` (ls_tool.py lines 78-119).
The queue pairs each pending path with the node it resolves to (the
filesystem is static during the call, so carrying the node is the same as
re-resolving the path).  A `dirFail` directory raises in the `try` block and
contributes no children (`continue`). -/
def lsLoopF (initialPath : Str) (ignorePatterns : List Str) :
    Nat → List (Str × FS) → Nat → List Str
  | 0, _, _ => []
  | _ + 1, [], _ => []
  | fuel + 1, (pth, node) :: rest, fileCount =>
    if fileCount < MAX_FILES then
      if shouldSkip pth ignorePatterns then
        lsLoopF initialPath ignorePatterns fuel rest fileCount
      else
        let recorded : List Str :=
          if pth == initialPath then []
          else
            let relPath := relpathUnder pth initialPath
            if node.isDir then
              [if endsSlash relPath then relPath else relPath ++ ['/']]
            else [relPath]
        let newCount := if pth == initialPath || node.isDir then fileCount else fileCount + 1
        recorded ++ lsLoopF initialPath ignorePatterns fuel
          (rest ++ nodeChildren pth ignorePatterns node) newCount
    else []

/-- `LSTool._list_directory` (ls_tool.py lines 67-123): run the loop from the
initial path and sort the collected relative paths alphabetically. -/
def listDirectory (fs : FS) (initialPath : Str) (ignorePatterns : List Str) : List Str :=
  isort strLeL (lsLoopF initialPath ignorePatterns (FS.size fs) [(initialPath, fs)] 0)

/-- `truncated = len(all_paths) >= MAX_FILES` (ls_tool.py line 59). -/
def scanTruncated (fs : FS) (initialPath : Str) (ignorePatterns : List Str) : Bool :=
  MAX_FILES ≤ (listDirectory fs initialPath ignorePatterns).length

/-- One node of the rendered tree (`_create_file_tree`'s dicts).  In the
Python dicts the `children` key is present exactly when `type` is
`'directory'`, so the key's presence is represented by the `isDirectory`
flag, and `children` is `[]` for a file node. -/
inductive TreeNode where
  | mk (name : Str) (pathR : Str) (isDirectory : Bool) (children : List TreeNode)

def TreeNode.name : TreeNode → Str
  | .mk n _ _ _ => n

def TreeNode.pathR : TreeNode → Str
  | .mk _ p _ _ => p

def TreeNode.isDirectory : TreeNode → Bool
  | .mk _ _ d _ => d

def TreeNode.children : TreeNode → List TreeNode
  | .mk _ _ _ cs => cs

/-- Python `str.split('/')`. -/
def splitSlash : Str → List Str
  | [] => [[]]
  | c :: rest =>
    if c = '/' then [] :: splitSlash rest
    else
      match splitSlash rest with
      | s :: ss => (c :: s) :: ss
      | [] => [[c]]

/-- The inner loop of `_create_file_tree` (ls_tool.py lines 164-198) for one
path: walk the parts, skipping empty parts, descending into the children of
an existing node of the same name (when that node is a file its `children`
key is absent, `get` returns a fresh list, and every later mutation is lost,
so the level is returned unchanged), and appending a new node otherwise. -/
def insertParts : List Str → Str → Bool → List TreeNode → List TreeNode
  | [], _, _, level => level
  | part :: rest, curPath, endsSl, level =>
    if part = [] then insertParts rest curPath endsSl level
    else
      let newPath := if curPath = [] then part else curPath ++ '/' :: part
      let isDirectory := !rest.isEmpty || endsSl
      match level.findIdx? (fun node => node.name == part) with
      | some i =>
        match level[i]? with
        | some node =>
          if node.isDirectory then
            level.set i (.mk node.name node.pathR true (insertParts rest newPath endsSl node.children))
          else level
        | none => level
      | none =>
        if isDirectory then
          level ++ [.mk part newPath true (insertParts rest newPath endsSl [])]
        else
          level ++ [.mk part newPath false []]

/-- `LSTool._create_file_tree` (ls_tool.py lines 152-200). -/
def createFileTree (sortedPaths : List Str) : List TreeNode :=
  sortedPaths.foldl (fun root p => insertParts (splitSlash p) [] (endsSlash p) root) []

mutual
/-- Rendering of one node by `_print_tree` (ls_tool.py lines 224-236):
marker, name, `'/'` suffix for directories, then the children (a file node
or an empty children list renders no child block). -/
def printNode (pre : Str) : TreeNode → Str
  | .mk nm _ d cs =>
    (pre ++ '-' :: ' ' :: nm ++ (if d then ['/'] else []) ++ ['\n'])
    ++ (if cs.isEmpty then [] else printNodesL (pre ++ strOf "  ") cs)
def printNodesL (pre : Str) : List TreeNode → Str
  | [] => []
  | t :: ts => printNode pre t ++ printNodesL pre ts
end

/-- `LSTool._print_tree` at level 0 (ls_tool.py lines 202-238): the root line
with the root path normalized to one trailing separator, then the nodes with
a two-space indent unit. -/
def printTree (tree : List TreeNode) (rootPath : Str) : Str :=
  (strOf "- " ++ (rstripSlash rootPath ++ ['/']) ++ ['\n']) ++ printNodesL (strOf "  ") tree

/-- `LSTool.forward` (ls_tool.py lines 31-65).  `resolved` is the filesystem
resolution of the (absolute) path argument: `none` when `os.path.exists` is
false, otherwise the entry it denotes. -/
def forward (resolved : Option FS) (pth : Str) (ignore : List Str) : Str :=
  match resolved with
  | none => strOf "Error: Path '" ++ pth ++ strOf "' does not exist"
  | some fs =>
    if !fs.isDir then strOf "Error: Path '" ++ pth ++ strOf "' is not a directory"
    else
      let allPaths := listDirectory fs pth ignore
      let tree := createFileTree allPaths
      let pre := if scanTruncated fs pth ignore then TRUNCATED_MESSAGE else []
      pre ++ printTree tree pth

/-! Specification-side definitions (not from the source): well-formed trees,
reachability through the skip filter, and entry/file counting. -/

/-- A legal filesystem entry name: non-empty and free of the separator. -/
def goodNameB (n : Str) : Bool := !n.isEmpty && !n.contains '/'

def nodupB : List Str → Bool
  | [] => true
  | x :: xs => !xs.contains x && nodupB xs

mutual
/-- Well-formed tree: every name is legal and sibling names are distinct. -/
def FS.wfB : FS → Bool
  | .file n => goodNameB n
  | .dirFail n => goodNameB n
  | .dir n cs => goodNameB n && nodupB (cs.map FS.name) && FS.wfL cs
def FS.wfL : List FS → Bool
  | [] => true
  | c :: cs => FS.wfB c && FS.wfL cs
end

/-- Node reached from the root node by following named children;
the list records the names along the way. -/
inductive SegReach (fs : FS) : List Str → FS → Prop where
  | nil : SegReach fs [] fs
  | cons {segs : List Str} {nm : Str} {cs : List FS} {c : FS} :
      SegReach fs segs (.dir nm cs) → c ∈ cs → SegReach fs (segs ++ [c.name]) c

/-- Descendant relation through the skip filter: `(p, n)` together with every
entry below it whose whole chain of intermediate entries (itself included)
passes `_should_skip`. -/
inductive DescFrom (pats : List Str) : Str × FS → Str × FS → Prop where
  | refl (e : Str × FS) : DescFrom pats e e
  | step {p : Str} {nm : Str} {cs : List FS} {c : FS} {tgt : Str × FS} :
      c ∈ cs → shouldSkip (pjoin p c.name) pats = false →
      DescFrom pats (pjoin p c.name, c) tgt → DescFrom pats (p, .dir nm cs) tgt

/-- An entry of the subtree of `fs` that the scan is expected to reach:
every link of its chain from the root passes the skip predicate. -/
def ReachEntry (fs : FS) (r : Str) (pats : List Str) (p : Str) (n : FS) : Prop :=
  shouldSkip r pats = false ∧ DescFrom pats (r, fs) (p, n)

mutual
/-- Number of file (non-directory) entries the scan would record below a
reached node (the node itself included when it is a file); skipped children
prune their whole subtree. -/
def fCnt (pats : List Str) : Str → FS → Nat
  | _, .file _ => 1
  | _, .dirFail _ => 0
  | p, .dir _ cs => fCntL pats p cs
def fCntL (pats : List Str) : Str → List FS → Nat
  | _, [] => 0
  | p, c :: cs =>
    (if shouldSkip (pjoin p c.name) pats then 0 else fCnt pats (pjoin p c.name) c)
      + fCntL pats p cs
end

mutual
/-- Number of entries (files and directories) the scan would record for a
reached node and its subtree. -/
def eCnt (pats : List Str) : Str → FS → Nat
  | _, .file _ => 1
  | _, .dirFail _ => 1
  | p, .dir _ cs => 1 + eCntL pats p cs
def eCntL (pats : List Str) : Str → List FS → Nat
  | _, [] => 0
  | p, c :: cs =>
    (if shouldSkip (pjoin p c.name) pats then 0 else eCnt pats (pjoin p c.name) c)
      + eCntL pats p cs
end

/-- Files the whole call records (root's subtree; the root itself records no
entry). -/
def fTop (fs : FS) (r : Str) (pats : List Str) : Nat :=
  if shouldSkip r pats then 0 else
    match fs with
    | .dir _ cs => fCntL pats r cs
    | _ => 0

/-- Entries the whole call records. -/
def eTop (fs : FS) (r : Str) (pats : List Str) : Nat :=
  if shouldSkip r pats then 0 else
    match fs with
    | .dir _ cs => eCntL pats r cs
    | _ => 0

/-- Relative path joined with `'/'` (inverse of `splitSlash` on good names). -/
def joinSegs : List Str → Str
  | [] => []
  | [s] => s
  | s :: rest => s ++ '/' :: joinSegs rest

/-- Absolute path of the entry reached by `segs`: iterated `os.path.join`. -/
def joinAbs (r : Str) (segs : List Str) : Str := segs.foldl pjoin r

/-- The relative-path string the loop records for a dequeued element. -/
def entryR (r : Str) (e : Str × FS) : Str :=
  let rel := relpathUnder e.1 r
  if e.2.isDir then (if endsSlash rel then rel else rel ++ ['/']) else rel

/-- Output of the loop on a queue of childless elements: each one records
its entry, only files consume budget, and the loop stops when the budget
(cap minus file counter) is exhausted. -/
def flatRun (r : Str) : List (Str × FS) → Nat → List Str
  | [], _ => []
  | e :: rest, b =>
    if b = 0 then []
    else entryR r e :: flatRun r rest (if e.2.isDir then b else b - 1)

mutual
/-- Replace every `dirFail` by an empty readable directory. -/
def FS.scrub : FS → FS
  | .file n => .file n
  | .dirFail n => .dir n []
  | .dir n cs => .dir n (FS.scrubL cs)
def FS.scrubL : List FS → List FS
  | [] => []
  | c :: cs => FS.scrub c :: FS.scrubL cs
end

/-- Segments of a recorded entry (directory marker stripped). -/
def entrySegs (x : Str) : List Str := splitSlash (rstripSlash x)

mutual
/-- Within every node's children of the rendered tree, names are distinct. -/
def namesOkB : List TreeNode → Bool
  | [] => true
  | t :: ts => !((ts.map TreeNode.name).contains t.name) && namesOk1 t && namesOkB ts
def namesOk1 : TreeNode → Bool
  | .mk _ _ _ cs => namesOkB cs
end

/-! Concrete fixtures. -/

/-- Distinct, strictly increasing one-character names (code points 5000+i). -/
def fchar (i : Nat) : Char := Char.ofNat (5000 + i)

def fsA : FS := .dir (strOf "r") [.file (strOf "a.txt"), .dir (strOf "b") [.file (strOf "c.txt")]]

def fsHidden : FS := .dir (strOf "r") [.dir (strOf ".git") [.file (strOf "config")], .file (strOf "README.md")]

def fsLog : FS := .dir (strOf "r") [.file (strOf "app.log"), .file (strOf "app.py")]

def fsDeep : FS := .dir (strOf "r") [.file (strOf "keep.py"), .dir (strOf "sub") [.file (strOf "deep.log")]]

def fsPy : FS := .dir (strOf "r") [.dir (strOf "foo__pycache__") [.file (strOf "x")], .file (strOf "y")]

def fsBang : FS := .dir (strOf "r") [.file (strOf "a!b"), .dir (strOf "a") []]

def fsFail : FS := .dir (strOf "r") [.dirFail (strOf "locked"), .file (strOf "ok")]

/-- 1200 plain files in one flat directory. -/
def flat1200 : FS := .dir (strOf "r") ((List.range 1200).map (fun i => FS.file [fchar i]))

/-- 1000 empty subdirectories, no files. -/
def dirs1000 : FS := .dir (strOf "r") ((List.range 1000).map (fun i => FS.dir [fchar i] []))

/-- 1000 empty subdirectories and one file sorting after all of them. -/
def mixed1001 : FS :=
  .dir (strOf "r") ((List.range 1000).map (fun i => FS.dir [fchar i] []) ++ [FS.file [fchar 1100]])

/-! Ghost data for the loop invariants. -/

/-- Sum of node counts over a queue (decreases at every loop iteration). -/
def qSize (q : List (Str × FS)) : Nat := (q.map (fun e => FS.size e.2)).sum

/-- The recorded string for the entry reached by `segs`:
its relative path, slash-suffixed when it is a directory. -/
def entryStr (S : List Str) (d : Bool) : Str :=
  if d then joinSegs S ++ ['/'] else joinSegs S

/-- All members are legal entry names and the list is non-empty. -/
def goodSegList (S : List Str) : Prop := S ≠ [] ∧ ∀ s ∈ S, goodNameB s = true

/-- Every link of the chain from the root to the entry at `S` passes the
skip predicate (its absolute path, as seen during traversal, is not
skipped). -/
def chainPass (r : Str) (pats : List Str) (S : List Str) : Prop :=
  ∀ k, k < S.length → shouldSkip (joinAbs r (S.take (k + 1))) pats = false

/-- Invariant of one queue element with its ghost segment list. -/
def elemInv (fs : FS) (r : Str) (pats : List Str) (e : Str × FS) (S : List Str) : Prop :=
  goodSegList S ∧ e.1 = joinAbs r S ∧ SegReach fs S e.2 ∧ chainPass r pats S

/-- Ghost segment lists for the enqueued children of a node reached at `S`. -/
def childSegs (pth : Str) (pats : List Str) (S : List Str) : FS → List (List Str)
  | .dir _ cs => (lsStepChildren pth cs pats).map (fun e => S ++ [e.2.name])
  | _ => []

/-- Neither segment list extends (or equals) the other. -/
def segsIncomp (a b : List Str) : Prop := (¬ ∃ t, b = a ++ t) ∧ (¬ ∃ t, a = b ++ t)

/-- Childless node: its dequeueing enqueues nothing. -/
def flatElem : FS → Prop
  | .dir _ cs => cs = []
  | _ => True

/-- Number of file elements of a flat queue. -/
def filesCount (q : List (Str × FS)) : Nat := (q.filter (fun e => !e.2.isDir)).length

/-! Theorems. -/

set_option maxRecDepth 4000

/-- Claim C3: if the resolved path does not exist, the call returns exactly
the error message naming the path and nothing else (no tree output, since no
traversal result can appear in this fixed string); if the resolved path
exists but is not a directory, it returns exactly the not-a-directory
message. -/
theorem claim_C3 (p : Str) (ignore : List Str) :
    forward none p ignore = strOf "Error: Path '" ++ p ++ strOf "' does not exist" ∧
    ∀ nm : Str, forward (some (FS.file nm)) p ignore =
      strOf "Error: Path '" ++ p ++ strOf "' is not a directory" :=
  ⟨rfl, fun _ => rfl⟩

/-- Claim C8: for a root containing exactly `a.txt`, `b/` and `b/c.txt` and
no ignore patterns, the scan returns the entries `a.txt`, `b/`, `b/c.txt`,
and the rendered output is the root line (absolute root path with one
trailing separator, marker, no indentation), then `- a.txt` and `- b/` at
one two-space indent unit, and `- c.txt` under `b/` one further unit deep,
directories suffixed with `/`. -/
theorem claim_C8 :
    listDirectory fsA (strOf "/r") [] = [strOf "a.txt", strOf "b/", strOf "b/c.txt"] ∧
    forward (some fsA) (strOf "/r") [] = strOf "- /r/\n  - a.txt\n  - b/\n    - c.txt\n" := by
  decide

/-- Claim C9: the bytecode-cache test is a raw substring test: the path
`/r/foo__pycache__/x` is skipped although `__pycache__` is not one of its
path segments, so in the tree with directory `foo__pycache__` containing
`x`, the child `x` is absent from the listing. -/
theorem claim_C9 :
    shouldSkip (strOf "/r/foo__pycache__/x") [] = true ∧
    (∀ seg ∈ splitSlash (strOf "/r/foo__pycache__/x"), seg ≠ PYCACHE) ∧
    listDirectory fsPy (strOf "/r") [] = [strOf "foo__pycache__/", strOf "y"] := by
  decide

/-- Claim C10: ignore globs are matched against the absolute traversal path:
the wildcard-free pattern `app.log` matches no absolute path and excludes
nothing, while `*.log` matches across directory separators and excludes
both `app.log` and the nested `sub/deep.log`. -/
theorem claim_C10 :
    fnmatch (strOf "/r/app.log") (strOf "app.log") = false ∧
    listDirectory fsLog (strOf "/r") [strOf "app.log"] = [strOf "app.log", strOf "app.py"] ∧
    fnmatch (strOf "/r/sub/deep.log") (strOf "*.log") = true ∧
    listDirectory fsDeep (strOf "/r") [strOf "*.log"] = [strOf "keep.py", strOf "sub/"] ∧
    listDirectory fsLog (strOf "/r") [strOf "*.log"] = [strOf "app.py"] := by
  decide

/-- Claim C7 counterexample: in the tree built for a root containing the
file `a!b` and the directory `a`, the root-level children are named
`a!b`, `a` in that order, which is not alphabetical (`a` sorts before
`a!b`), because `a!b` precedes the directory entry `a/` in the sorted flat
list (`'!' < '/'`). -/
theorem claim_C7_counterexample :
    ¬ List.Pairwise (fun a b => strLeL a b = true)
        ((createFileTree (listDirectory fsBang (strOf "/r") [])).map TreeNode.name) := by
  decide

/-! Order lemmas for the Python string comparison. -/

theorem charToNat_inj {a b : Char} (h : a.toNat = b.toNat) : a = b :=
  Char.eq_of_val_eq (UInt32.ext h)

theorem strLtL_irrefl (a : Str) : strLtL a a = false := by
  induction a with
  | nil => rfl
  | cons c cs ih => simp [strLtL, ih]

theorem strLtL_trichotomy (a b : Str) : strLtL a b = true ∨ a = b ∨ strLtL b a = true := by
  induction a generalizing b with
  | nil =>
    cases b with
    | nil => right; left; rfl
    | cons d ds => left; rfl
  | cons c cs ih =>
    cases b with
    | nil => right; right; rfl
    | cons d ds =>
      rcases Nat.lt_trichotomy c.toNat d.toNat with h | h | h
      · left; simp [strLtL, h]
      · have hcd : c = d := charToNat_inj h
        subst hcd
        rcases ih ds with h2 | h2 | h2
        · left; simp [strLtL, h2]
        · right; left; rw [h2]
        · right; right; simp [strLtL, h2]
      · right; right; simp [strLtL, h]

theorem strLtL_trans {a b c : Str} (h1 : strLtL a b = true) (h2 : strLtL b c = true) :
    strLtL a c = true := by
  induction a generalizing b c with
  | nil =>
    cases b with
    | nil => exact absurd h1 (by simp [strLtL])
    | cons y ys =>
      cases c with
      | nil => exact absurd h2 (by simp [strLtL])
      | cons z zs => rfl
  | cons x xs ih =>
    cases b with
    | nil => exact absurd h1 (by simp [strLtL])
    | cons y ys =>
      cases c with
      | nil => exact absurd h2 (by simp [strLtL])
      | cons z zs =>
        simp only [strLtL, Bool.or_eq_true, Bool.and_eq_true, decide_eq_true_eq,
          beq_iff_eq] at h1 h2 ⊢
        rcases h1 with h1 | ⟨h1e, h1r⟩
        · rcases h2 with h2 | ⟨h2e, h2r⟩
          · exact Or.inl (Nat.lt_trans h1 h2)
          · subst h2e; exact Or.inl h1
        · subst h1e
          rcases h2 with h2 | ⟨h2e, h2r⟩
          · exact Or.inl h2
          · subst h2e; exact Or.inr ⟨rfl, ih h1r h2r⟩

theorem strLtL_asymm {a b : Str} (h : strLtL a b = true) : strLtL b a = false := by
  by_contra hc
  have hb : strLtL b a = true := by
    cases hv : strLtL b a with
    | false => exact absurd hv hc
    | true => rfl
  have := strLtL_trans h hb
  rw [strLtL_irrefl] at this
  exact Bool.false_ne_true this

theorem strLeL_refl (a : Str) : strLeL a a = true := by
  simp [strLeL, strLtL_irrefl]

theorem strLeL_total (a b : Str) : strLeL a b = true ∨ strLeL b a = true := by
  rcases strLtL_trichotomy a b with h | h | h
  · left; simp [strLeL, strLtL_asymm h]
  · subst h; left; exact strLeL_refl a
  · right; simp [strLeL, strLtL_asymm h]

theorem strLeL_of_not (a b : Str) (h : strLeL a b = false) : strLeL b a = true := by
  rcases strLeL_total a b with h2 | h2
  · rw [h] at h2; exact absurd h2 Bool.false_ne_true
  · exact h2

theorem strLeL_trans {a b c : Str} (h1 : strLeL a b = true) (h2 : strLeL b c = true) :
    strLeL a c = true := by
  simp only [strLeL, Bool.not_eq_true'] at h1 h2 ⊢
  by_contra hc
  have hca : strLtL c a = true := by
    cases hv : strLtL c a with
    | false => exact absurd (by rw [hv]) hc
    | true => rfl
  rcases strLtL_trichotomy c b with h | h | h
  · rw [h] at h2; exact Bool.noConfusion h2
  · subst h; rw [hca] at h1; exact Bool.noConfusion h1
  · have := strLtL_trans h hca
    rw [this] at h1; exact Bool.noConfusion h1

theorem strLtL_of_le_of_ne {a b : Str} (h1 : strLeL a b = true) (h2 : a ≠ b) :
    strLtL a b = true := by
  rcases strLtL_trichotomy a b with h | h | h
  · exact h
  · exact absurd h h2
  · simp only [strLeL, h, Bool.not_true] at h1
    exact absurd h1 Bool.false_ne_true

/-- Lexicographic comparison ignores a common front part. -/
theorem strLtL_append_same (x a b : Str) : strLtL (x ++ a) (x ++ b) = strLtL a b := by
  induction x with
  | nil => rfl
  | cons c cs ih => simp [strLtL, ih]

theorem strLeL_append_same (x a b : Str) : strLeL (x ++ a) (x ++ b) = strLeL a b := by
  simp [strLeL, strLtL_append_same]

/-! Insertion-sort lemmas. -/

theorem insertLe_perm (le : α → α → Bool) (a : α) (l : List α) :
    List.Perm (insertLe le a l) (a :: l) := by
  induction l with
  | nil => exact List.Perm.refl _
  | cons b bs ih =>
    simp only [insertLe]
    split
    · exact List.Perm.refl _
    · exact (ih.cons b).trans (List.Perm.swap a b bs)

theorem isort_perm (le : α → α → Bool) (l : List α) : List.Perm (isort le l) l := by
  induction l with
  | nil => exact List.Perm.refl _
  | cons a as ih => exact (insertLe_perm le a (isort le as)).trans (ih.cons a)

theorem isort_length (le : α → α → Bool) (l : List α) : (isort le l).length = l.length :=
  (isort_perm le l).length_eq

theorem isort_mem (le : α → α → Bool) (l : List α) (x : α) :
    x ∈ isort le l ↔ x ∈ l := (isort_perm le l).mem_iff

theorem isort_nodup (le : α → α → Bool) (l : List α) (h : l.Nodup) : (isort le l).Nodup :=
  ((isort_perm le l).nodup_iff).mpr h

theorem insertLe_mem {le : α → α → Bool} {a x : α} {l : List α}
    (h : x ∈ insertLe le a l) : x = a ∨ x ∈ l := by
  have := ((insertLe_perm le a l).mem_iff).mp h
  simpa using this

theorem insertLe_pairwise {le : α → α → Bool}
    (htot : ∀ a b, le a b = false → le b a = true)
    (htrans : ∀ {a b c}, le a b = true → le b c = true → le a c = true)
    (a : α) {l : List α} (h : l.Pairwise (fun x y => le x y = true)) :
    (insertLe le a l).Pairwise (fun x y => le x y = true) := by
  induction l with
  | nil => simp [insertLe]
  | cons b bs ih =>
    rcases List.pairwise_cons.mp h with ⟨hb, hbs⟩
    simp only [insertLe]
    split
    · next hab =>
      refine List.Pairwise.cons ?_ h
      intro y hy
      rcases List.mem_cons.mp hy with rfl | hy
      · exact hab
      · exact htrans hab (hb y hy)
    · next hab =>
      refine List.Pairwise.cons ?_ (ih hbs)
      intro y hy
      rcases insertLe_mem hy with h | hy
      · rw [h]; exact htot a b (Bool.eq_false_iff.mpr hab)
      · exact hb y hy

theorem isort_pairwise {le : α → α → Bool}
    (htot : ∀ a b, le a b = false → le b a = true)
    (htrans : ∀ {a b c}, le a b = true → le b c = true → le a c = true)
    (l : List α) : (isort le l).Pairwise (fun x y => le x y = true) := by
  induction l with
  | nil => simp [isort]
  | cons a as ih => exact insertLe_pairwise htot htrans a ih

theorem isort_of_pairwise {le : α → α → Bool} {l : List α}
    (h : l.Pairwise (fun x y => le x y = true)) : isort le l = l := by
  induction l with
  | nil => rfl
  | cons a as ih =>
    rcases List.pairwise_cons.mp h with ⟨ha, has⟩
    simp only [isort, ih has]
    cases as with
    | nil => rfl
    | cons b bs => simp [insertLe, ha b (List.mem_cons_self b bs)]

theorem insertLe_map {le : α → α → Bool} {le' : β → β → Bool} {g : α → β}
    (hg : ∀ a b, le' (g a) (g b) = le a b) (a : α) (l : List α) :
    insertLe le' (g a) (l.map g) = (insertLe le a l).map g := by
  induction l with
  | nil => rfl
  | cons b bs ih =>
    simp only [List.map_cons, insertLe, hg a b]
    by_cases h : le a b = true
    · simp [h]
    · simp [Bool.eq_false_iff.mpr h, ih]

theorem isort_map {le : α → α → Bool} {le' : β → β → Bool} {g : α → β}
    (hg : ∀ a b, le' (g a) (g b) = le a b) (l : List α) :
    isort le' (l.map g) = (isort le l).map g := by
  induction l with
  | nil => rfl
  | cons a as ih => simp only [List.map_cons, isort, ih, insertLe_map hg]

theorem isort_map_sum (f : α → Nat) (le : α → α → Bool) (l : List α) :
    ((isort le l).map f).sum = (l.map f).sum :=
  ((isort_perm le l).map f).sum_eq

theorem filter_map_sum_le (p : α → Bool) (f : α → Nat) (l : List α) :
    ((l.filter p).map f).sum ≤ (l.map f).sum := by
  induction l with
  | nil => exact Nat.le_refl _
  | cons a as ih =>
    by_cases h : p a
    · simp only [List.filter_cons, h, if_pos, List.map_cons, List.sum_cons]
      omega
    · simp only [List.filter_cons, h, Bool.false_eq_true, if_neg, not_false_iff,
        List.map_cons, List.sum_cons]
      omega

/-! Path-string structure lemmas. -/

theorem goodNameB_iff {n : Str} : goodNameB n = true ↔ n ≠ [] ∧ '/' ∉ n := by
  simp [goodNameB]

theorem endsSlash_of_getLast {p : Str} {x : Char} (h : p.getLast? = some x) (hx : x ≠ '/') :
    endsSlash p = false := by
  simp [endsSlash, h, hx]

theorem getLast_so_of_ne_nil {c : Str} (hne : c ≠ []) : ∃ x, c.getLast? = some x := by
  cases hx : c.getLast? with
  | none => exact absurd (List.getLast?_eq_none_iff.mp hx) hne
  | some x => exact ⟨x, rfl⟩

theorem endsSlash_good {c : Str} (hne : c ≠ []) (hns : '/' ∉ c) : endsSlash c = false := by
  rcases getLast_so_of_ne_nil hne with ⟨x, hx⟩
  exact endsSlash_of_getLast hx (fun h => hns (h ▸ List.mem_of_mem_getLast? hx))

theorem endsSlash_append_right (p : Str) {q : Str} (hq : q ≠ []) :
    endsSlash (p ++ q) = endsSlash q := by
  rcases getLast_so_of_ne_nil hq with ⟨x, hx⟩
  simp [endsSlash, List.getLast?_append, hx]

theorem endsSlash_append_good {c : Str} (hne : c ≠ []) (hns : '/' ∉ c) (p : Str) :
    endsSlash (p ++ c) = false := by
  rw [endsSlash_append_right p hne]
  exact endsSlash_good hne hns

theorem pjoin_eq_append (p c : Str) :
    pjoin p c = (if p = [] ∨ endsSlash p = true then p else p ++ ['/']) ++ c := by
  unfold pjoin
  split
  · next h => simp [h]
  · next h => simp [h, List.append_assoc]

theorem pjoin_ne_nil {c : Str} (hne : c ≠ []) (p : Str) : pjoin p c ≠ [] := by
  rw [pjoin_eq_append]
  intro h
  exact hne (List.append_eq_nil.mp h).2

theorem endsSlash_pjoin {c : Str} (hne : c ≠ []) (hns : '/' ∉ c) (p : Str) :
    endsSlash (pjoin p c) = false := by
  rw [pjoin_eq_append]
  exact endsSlash_append_good hne hns _

theorem rstripSlash_eq_self {p : Str} (h : endsSlash p = false) : rstripSlash p = p := by
  rcases hrev : p.reverse with _ | ⟨x, xs⟩
  · have hp : p = [] := by
      have := congrArg List.reverse hrev
      simpa using this
    subst hp; rfl
  · have hx : p.getLast? = some x := by
      rw [List.getLast?_eq_head?_reverse, hrev]; rfl
    have hxne : (x == '/') = false := by
      refine beq_eq_false_iff_ne.mpr (fun he => ?_)
      rw [he] at hx
      simp [endsSlash, hx] at h
    unfold rstripSlash
    rw [hrev, List.dropWhile_cons, hxne]
    simp [← hrev]

theorem endsSlash_concat_slash (y : Str) : endsSlash (y ++ ['/']) = true := by
  simp [endsSlash, List.getLast?_append]

theorem rstripSlash_concat_slash {y : Str} (h : endsSlash y = false) :
    rstripSlash (y ++ ['/']) = y := by
  unfold rstripSlash
  rw [List.reverse_append]
  show (List.dropWhile (fun c => c == '/') ('/' :: y.reverse)).reverse = y
  rw [List.dropWhile_cons]
  simp only [beq_self_eq_true, if_pos]
  have := rstripSlash_eq_self h
  unfold rstripSlash at this
  exact this

theorem takeWhile_append_all {q : Char → Bool} {l₁ : Str} (l₂ : Str)
    (h : ∀ a ∈ l₁, q a = true) :
    (l₁ ++ l₂).takeWhile q = l₁ ++ l₂.takeWhile q := by
  induction l₁ with
  | nil => rfl
  | cons a as ih =>
    rw [List.cons_append, List.takeWhile_cons, if_pos (h a (List.mem_cons_self a as)),
      ih (fun b hb => h b (List.mem_cons_of_mem a hb))]
    rfl

theorem basenameOf_eq_of_reverse (z c t : Str) (hns : '/' ∉ c)
    (hz : z.reverse = c.reverse ++ t) (ht : t = [] ∨ t.head? = some '/') :
    basenameOf z = c := by
  have hall : ∀ a ∈ c.reverse, (a != '/') = true := by
    intro a ha
    have hmem : a ∈ c := List.mem_reverse.mp ha
    have : a ≠ '/' := fun h => hns (h ▸ hmem)
    simpa using this
  have htw : t.takeWhile (fun x => x != '/') = [] := by
    rcases ht with rfl | ht
    · rfl
    · rcases t with _ | ⟨x, xs⟩
      · rfl
      · have hx : x = '/' := by simpa using ht
        subst hx
        rw [List.takeWhile_cons]
        simp
  unfold basenameOf
  rw [hz, takeWhile_append_all t hall, htw, List.append_nil, List.reverse_reverse]

theorem reverse_head_of_endsSlash {p : Str} (h : endsSlash p = true) :
    p.reverse.head? = some '/' := by
  have : p.getLast? = some '/' := by simpa [endsSlash] using h
  rw [← List.getLast?_eq_head?_reverse]
  exact this

theorem basenameOf_pjoin {c : Str} (hns : '/' ∉ c) (p : Str) : basenameOf (pjoin p c) = c := by
  unfold pjoin
  split
  · next hor =>
    refine basenameOf_eq_of_reverse (p ++ c) c p.reverse hns (by rw [List.reverse_append]) ?_
    rcases hor with hp | hp
    · left; simp [hp]
    · right; exact reverse_head_of_endsSlash hp
  · next hor =>
    refine basenameOf_eq_of_reverse (p ++ '/' :: c) c ('/' :: p.reverse) hns ?_ (Or.inr rfl)
    rw [List.reverse_append, List.reverse_cons, List.append_assoc]
    rfl

/-! Segment-list lemmas. -/

theorem joinSegs_ne_nil {S : List Str} (hne : S ≠ [])
    (hgood : ∀ s ∈ S, goodNameB s = true) : joinSegs S ≠ [] := by
  cases S with
  | nil => exact absurd rfl hne
  | cons a T =>
    cases T with
    | nil =>
      exact (goodNameB_iff.mp (hgood a (List.mem_cons_self a []))).1
    | cons b T' =>
      show a ++ '/' :: joinSegs (b :: T') ≠ []
      intro h
      exact List.noConfusion (List.append_eq_nil.mp h).2

theorem endsSlash_joinSegs {S : List Str} (hgood : ∀ s ∈ S, goodNameB s = true) :
    endsSlash (joinSegs S) = false := by
  induction S with
  | nil => rfl
  | cons a T ih =>
    cases T with
    | nil =>
      rcases goodNameB_iff.mp (hgood a (List.mem_cons_self a [])) with ⟨hne, hns⟩
      exact endsSlash_good hne hns
    | cons b T' =>
      have hT : ∀ s ∈ b :: T', goodNameB s = true :=
        fun s hs => hgood s (List.mem_cons_of_mem a hs)
      have hjn : joinSegs (b :: T') ≠ [] := joinSegs_ne_nil (by simp) hT
      show endsSlash (a ++ '/' :: joinSegs (b :: T')) = false
      rw [endsSlash_append_right a (by simp), ← ih hT]
      unfold endsSlash
      rcases getLast_so_of_ne_nil hjn with ⟨x, hx⟩
      rw [List.getLast?_cons, hx]
      rfl

theorem slashfree_split {a b t₁ t₂ : Str} (ha : '/' ∉ a) (hb : '/' ∉ b)
    (h : a ++ '/' :: t₁ = b ++ '/' :: t₂) : a = b ∧ t₁ = t₂ := by
  induction a generalizing b with
  | nil =>
    cases b with
    | nil => simpa using h
    | cons y ys =>
      rw [List.nil_append, List.cons_append] at h
      have hy : '/' = y := by
        have := congrArg List.head? h
        simpa using this
      exact absurd (hy ▸ List.mem_cons_self y ys) hb
  | cons x xs ih =>
    cases b with
    | nil =>
      rw [List.nil_append, List.cons_append] at h
      have hx : x = '/' := by
        have := congrArg List.head? h
        simpa using this
      exact absurd (hx ▸ List.mem_cons_self x xs) ha
    | cons y ys =>
      rw [List.cons_append, List.cons_append] at h
      injection h with h1 h2
      subst h1
      rcases ih (fun hm => ha (List.mem_cons_of_mem x hm))
        (fun hm => hb (List.mem_cons_of_mem x hm)) h2 with ⟨he, ht⟩
      exact ⟨by rw [he], ht⟩

theorem joinSegs_inj {S₁ S₂ : List Str}
    (h₁ : ∀ s ∈ S₁, goodNameB s = true) (h₂ : ∀ s ∈ S₂, goodNameB s = true)
    (h : joinSegs S₁ = joinSegs S₂) : S₁ = S₂ := by
  induction S₁ generalizing S₂ with
  | nil =>
    cases S₂ with
    | nil => rfl
    | cons b T => exact absurd h.symm (joinSegs_ne_nil (by simp) h₂)
  | cons a T₁ ih =>
    cases S₂ with
    | nil => exact absurd h (joinSegs_ne_nil (by simp) h₁)
    | cons b T₂ =>
      have hga := goodNameB_iff.mp (h₁ a (List.mem_cons_self a T₁))
      have hgb := goodNameB_iff.mp (h₂ b (List.mem_cons_self b T₂))
      cases T₁ with
      | nil =>
        cases T₂ with
        | nil => rw [show joinSegs [a] = a from rfl, show joinSegs [b] = b from rfl] at h; rw [h]
        | cons b2 T₂' =>
          exfalso
          have : '/' ∈ a := by
            rw [show joinSegs [a] = a from rfl,
              show joinSegs (b :: b2 :: T₂') = b ++ '/' :: joinSegs (b2 :: T₂') from rfl] at h
            rw [h]
            exact List.mem_append_right b (List.mem_cons_self _ _)
          exact hga.2 this
      | cons a2 T₁' =>
        cases T₂ with
        | nil =>
          exfalso
          have : '/' ∈ b := by
            rw [show joinSegs (a :: a2 :: T₁') = a ++ '/' :: joinSegs (a2 :: T₁') from rfl,
              show joinSegs [b] = b from rfl] at h
            rw [← h]
            exact List.mem_append_right a (List.mem_cons_self _ _)
          exact hgb.2 this
        | cons b2 T₂' =>
          rw [show joinSegs (a :: a2 :: T₁') = a ++ '/' :: joinSegs (a2 :: T₁') from rfl,
            show joinSegs (b :: b2 :: T₂') = b ++ '/' :: joinSegs (b2 :: T₂') from rfl] at h
          rcases slashfree_split hga.2 hgb.2 h with ⟨he, ht⟩
          subst he
          rw [ih (fun s hs => h₁ s (List.mem_cons_of_mem a hs))
            (fun s hs => h₂ s (List.mem_cons_of_mem a hs)) ht]

theorem splitSlash_cons (c : Char) (rest : Str) :
    splitSlash (c :: rest) =
      if c = '/' then [] :: splitSlash rest
      else
        match splitSlash rest with
        | s :: ss => (c :: s) :: ss
        | [] => [[c]] := rfl

theorem splitSlash_slashfree {a : Str} (ha : '/' ∉ a) : splitSlash a = [a] := by
  induction a with
  | nil => rfl
  | cons c cs ih =>
    have hc : ¬ (c = '/') := fun h => ha (h ▸ List.mem_cons_self c cs)
    rw [splitSlash_cons, if_neg hc, ih (fun hm => ha (List.mem_cons_of_mem c hm))]

theorem splitSlash_append_slash {a : Str} (ha : '/' ∉ a) (t : Str) :
    splitSlash (a ++ '/' :: t) = a :: splitSlash t := by
  induction a with
  | nil =>
    show splitSlash ('/' :: t) = [] :: splitSlash t
    rw [splitSlash_cons, if_pos rfl]
  | cons c cs ih =>
    have hc : ¬ (c = '/') := fun h => ha (h ▸ List.mem_cons_self c cs)
    show splitSlash (c :: (cs ++ '/' :: t)) = (c :: cs) :: splitSlash t
    rw [splitSlash_cons, if_neg hc, ih (fun hm => ha (List.mem_cons_of_mem c hm))]

theorem splitSlash_joinSegs {S : List Str} (hne : S ≠ [])
    (hgood : ∀ s ∈ S, goodNameB s = true) : splitSlash (joinSegs S) = S := by
  induction S with
  | nil => exact absurd rfl hne
  | cons a T ih =>
    have hga := goodNameB_iff.mp (hgood a (List.mem_cons_self a T))
    cases T with
    | nil => exact splitSlash_slashfree hga.2
    | cons b T' =>
      show splitSlash (a ++ '/' :: joinSegs (b :: T')) = a :: b :: T'
      rw [splitSlash_append_slash hga.2,
        ih (by simp) (fun s hs => hgood s (List.mem_cons_of_mem a hs))]

theorem splitSlash_joinSegs_slash {S : List Str} (hne : S ≠ [])
    (hgood : ∀ s ∈ S, goodNameB s = true) :
    splitSlash (joinSegs S ++ ['/']) = S ++ [[]] := by
  induction S with
  | nil => exact absurd rfl hne
  | cons a T ih =>
    have hga := goodNameB_iff.mp (hgood a (List.mem_cons_self a T))
    cases T with
    | nil =>
      show splitSlash (a ++ '/' :: []) = [a] ++ [[]]
      rw [splitSlash_append_slash hga.2]
      rfl
    | cons b T' =>
      show splitSlash ((a ++ '/' :: joinSegs (b :: T')) ++ ['/']) = (a :: b :: T') ++ [[]]
      rw [List.append_assoc, List.cons_append, splitSlash_append_slash hga.2]
      rw [show joinSegs (b :: T') ++ ['/'] = joinSegs (b :: T') ++ ['/'] from rfl]
      rw [ih (by simp) (fun s hs => hgood s (List.mem_cons_of_mem a hs))]
      rfl

/-! Absolute-path lemmas. -/

theorem joinAbs_cons (r s : Str) (S : List Str) :
    joinAbs r (s :: S) = joinAbs (pjoin r s) S := rfl

theorem joinAbs_concat (r : Str) (S : List Str) (c : Str) :
    joinAbs r (S ++ [c]) = pjoin (joinAbs r S) c := by
  unfold joinAbs
  rw [List.foldl_append]
  rfl

theorem joinAbs_eq {S : List Str} (hne : S ≠ [])
    (hgood : ∀ s ∈ S, goodNameB s = true) (r : Str) :
    joinAbs r S =
      (if r = [] ∨ endsSlash r = true then r else r ++ ['/']) ++ joinSegs S := by
  induction S generalizing r with
  | nil => exact absurd rfl hne
  | cons a T ih =>
    have hga := goodNameB_iff.mp (hgood a (List.mem_cons_self a T))
    cases T with
    | nil =>
      show pjoin r a = _ ++ joinSegs [a]
      rw [pjoin_eq_append]
      rfl
    | cons b T' =>
      have hT : ∀ s ∈ b :: T', goodNameB s = true :=
        fun s hs => hgood s (List.mem_cons_of_mem a hs)
      rw [joinAbs_cons, ih (by simp) hT]
      have h1 : pjoin r a = [] ∨ endsSlash (pjoin r a) = true ↔ False := by
        simp [pjoin_ne_nil hga.1 r, endsSlash_pjoin hga.1 hga.2 r]
      rw [if_neg (h1.mp ∘ id)]
      rw [show joinSegs (a :: b :: T') = a ++ '/' :: joinSegs (b :: T') from rfl]
      rw [pjoin_eq_append]
      simp [List.append_assoc]

theorem joinSegs_length_pos {S : List Str} (hne : S ≠ [])
    (hgood : ∀ s ∈ S, goodNameB s = true) : 0 < (joinSegs S).length := by
  cases hj : joinSegs S with
  | nil => exact absurd hj (joinSegs_ne_nil hne hgood)
  | cons x xs => simp

theorem joinAbs_length_gt {S : List Str} (hne : S ≠ [])
    (hgood : ∀ s ∈ S, goodNameB s = true) (r : Str) :
    r.length < (joinAbs r S).length := by
  rw [joinAbs_eq hne hgood r]
  have hj := joinSegs_length_pos hne hgood
  by_cases h : r = [] ∨ endsSlash r = true
  · rw [if_pos h, List.length_append]; omega
  · rw [if_neg h, List.length_append, List.length_append]; simp; omega

theorem joinAbs_ne_root {S : List Str} (hne : S ≠ [])
    (hgood : ∀ s ∈ S, goodNameB s = true) (r : Str) : joinAbs r S ≠ r := by
  intro h
  have := joinAbs_length_gt hne hgood r
  rw [h] at this
  omega

theorem joinAbs_beq_root {S : List Str} (hne : S ≠ [])
    (hgood : ∀ s ∈ S, goodNameB s = true) (r : Str) : (joinAbs r S == r) = false :=
  beq_eq_false_iff_ne.mpr (joinAbs_ne_root hne hgood r)

theorem relpathUnder_joinAbs {S : List Str} (hne : S ≠ [])
    (hgood : ∀ s ∈ S, goodNameB s = true) {r : Str} (hr : r ≠ []) :
    relpathUnder (joinAbs r S) r = joinSegs S := by
  unfold relpathUnder
  rw [if_neg (joinAbs_ne_root hne hgood r)]
  rw [joinAbs_eq hne hgood r]
  by_cases hes : endsSlash r = true
  · rw [if_pos hes, if_pos (Or.inr hes), List.drop_left]
  · have hcond : ¬ (r = [] ∨ endsSlash r = true) := by
      intro hor
      rcases hor with h | h
      · exact hr h
      · exact hes h
    rw [if_neg (by simpa using hes), if_neg hcond]
    have : (r ++ ['/']).length = r.length + 1 := by simp
    rw [← this, List.drop_left]

/-- The basename of the traversal path of the entry at `S` is its last name. -/
theorem basenameOf_joinAbs {S : List Str} {c : Str}
    (hgood : ∀ s ∈ S ++ [c], goodNameB s = true) (r : Str) :
    basenameOf (rstripSlash (joinAbs r (S ++ [c]))) = c := by
  have hgc := goodNameB_iff.mp (hgood c (List.mem_append_right S (List.mem_cons_self c [])))
  rw [joinAbs_concat]
  rw [rstripSlash_eq_self (endsSlash_pjoin hgc.1 hgc.2 _)]
  exact basenameOf_pjoin hgc.2 _

/-! Entry-string lemmas. -/

theorem entryStr_inj {S₁ S₂ : List Str} {d₁ d₂ : Bool}
    (hne₁ : S₁ ≠ []) (hg₁ : ∀ s ∈ S₁, goodNameB s = true)
    (hne₂ : S₂ ≠ []) (hg₂ : ∀ s ∈ S₂, goodNameB s = true)
    (h : entryStr S₁ d₁ = entryStr S₂ d₂) : S₁ = S₂ ∧ d₁ = d₂ := by
  unfold entryStr at h
  cases d₁ with
  | false =>
    cases d₂ with
    | false => exact ⟨joinSegs_inj hg₁ hg₂ h, rfl⟩
    | true =>
      exfalso
      rw [if_neg (by simp), if_pos rfl] at h
      have h1 := endsSlash_joinSegs hg₁
      rw [h, endsSlash_concat_slash] at h1
      exact Bool.noConfusion h1
  | true =>
    cases d₂ with
    | false =>
      exfalso
      rw [if_pos rfl, if_neg (by simp)] at h
      have h1 := endsSlash_joinSegs hg₂
      rw [← h, endsSlash_concat_slash] at h1
      exact Bool.noConfusion h1
    | true =>
      rw [if_pos rfl, if_pos rfl] at h
      exact ⟨joinSegs_inj hg₁ hg₂ (List.append_cancel_right h), rfl⟩

theorem entrySegs_entryStr {S : List Str} (hne : S ≠ [])
    (hgood : ∀ s ∈ S, goodNameB s = true) (d : Bool) :
    entrySegs (entryStr S d) = S := by
  unfold entrySegs entryStr
  cases d with
  | false =>
    rw [if_neg (by simp), rstripSlash_eq_self (endsSlash_joinSegs hgood)]
    exact splitSlash_joinSegs hne hgood
  | true =>
    rw [if_pos rfl, rstripSlash_concat_slash (endsSlash_joinSegs hgood)]
    exact splitSlash_joinSegs hne hgood

theorem splitSlash_entryStr {S : List Str} (hne : S ≠ [])
    (hgood : ∀ s ∈ S, goodNameB s = true) (d : Bool) :
    splitSlash (entryStr S d) = if d then S ++ [[]] else S := by
  unfold entryStr
  cases d with
  | false =>
    rw [if_neg (by simp), if_neg (by simp)]
    exact splitSlash_joinSegs hne hgood
  | true =>
    rw [if_pos rfl, if_pos rfl]
    exact splitSlash_joinSegs_slash hne hgood

/-! Skip-predicate decomposition and well-formedness lemmas. -/

theorem shouldSkip_eq_false_iff {p : Str} {pats : List Str} :
    shouldSkip p pats = false ↔
      hiddenName (basenameOf (rstripSlash p)) = false ∧
      (basenameOf (rstripSlash p) == PYCACHE) = false ∧
      hasSub p (PYCACHE ++ ['/']) = false ∧
      pats.any (fun pat => fnmatch p pat) = false := by
  unfold shouldSkip
  constructor
  · intro h
    simp only [Bool.or_eq_false_iff] at h
    exact ⟨h.1.1, h.1.2.1, h.1.2.2, h.2⟩
  · intro ⟨h1, h2, h3, h4⟩
    simp only [Bool.or_eq_false_iff]
    exact ⟨⟨h1, h2, h3⟩, h4⟩

theorem wfL_mem {cs : List FS} {c : FS} (h : FS.wfL cs = true) (hc : c ∈ cs) :
    FS.wfB c = true := by
  induction cs with
  | nil => cases hc
  | cons d ds ih =>
    have h' : FS.wfB d = true ∧ FS.wfL ds = true := by
      have : (FS.wfB d && FS.wfL ds) = true := h
      exact Bool.and_eq_true_iff.mp this
    rcases List.mem_cons.mp hc with he | hc
    · rw [he]; exact h'.1
    · exact ih h'.2 hc

theorem wfB_dir {nm : Str} {cs : List FS} (h : FS.wfB (.dir nm cs) = true) :
    goodNameB nm = true ∧ nodupB (cs.map FS.name) = true ∧ FS.wfL cs = true := by
  have : (goodNameB nm && (nodupB (cs.map FS.name) && FS.wfL cs)) = true := by
    have h2 : ((goodNameB nm && nodupB (cs.map FS.name)) && FS.wfL cs) = true := h
    rw [Bool.and_assoc] at h2
    exact h2
  rcases Bool.and_eq_true_iff.mp this with ⟨ha, hb⟩
  rcases Bool.and_eq_true_iff.mp hb with ⟨hb1, hb2⟩
  exact ⟨ha, hb1, hb2⟩

theorem SegReach_wf {fs : FS} (hwf : FS.wfB fs = true) {S : List Str} {n : FS}
    (h : SegReach fs S n) : FS.wfB n = true := by
  induction h with
  | nil => exact hwf
  | cons _ hc ih => exact wfL_mem (wfB_dir ih).2.2 hc

theorem nodupB_iff {l : List Str} : nodupB l = true ↔ l.Nodup := by
  induction l with
  | nil => simp [nodupB]
  | cons x xs ih => simp [nodupB, ih, List.nodup_cons]

/-! Size lemmas. -/

theorem FS.size_pos : ∀ n : FS, 0 < FS.size n
  | .file _ => by simp [FS.size]
  | .dirFail _ => by simp [FS.size]
  | .dir _ cs => by
    show 0 < 1 + FS.sizeL cs
    omega

theorem sizeL_eq_sum (cs : List FS) : FS.sizeL cs = (cs.map FS.size).sum := by
  induction cs with
  | nil => rfl
  | cons c cs ih =>
    show FS.size c + FS.sizeL cs = _
    simp [ih]

theorem qSize_cons (e : Str × FS) (q : List (Str × FS)) :
    qSize (e :: q) = FS.size e.2 + qSize q := by
  simp [qSize]

theorem qSize_append (q₁ q₂ : List (Str × FS)) :
    qSize (q₁ ++ q₂) = qSize q₁ + qSize q₂ := by
  simp [qSize]

theorem qSize_lsStepChildren (p : Str) (cs : List FS) (pats : List Str) :
    qSize (lsStepChildren p cs pats) ≤ FS.sizeL cs := by
  unfold qSize lsStepChildren
  have h1 := filter_map_sum_le (fun (e : Str × FS) => !shouldSkip e.1 pats)
    (fun (e : Str × FS) => FS.size e.2)
    (isort (fun a b => strLeL a.1 b.1) (cs.map (fun c => (pjoin p c.name, c))))
  have h2 := isort_map_sum (fun (e : Str × FS) => FS.size e.2)
    (fun a b => strLeL a.1 b.1) (cs.map (fun c => (pjoin p c.name, c)))
  have h3 : ((cs.map (fun c => (pjoin p c.name, c))).map (fun (e : Str × FS) => FS.size e.2)).sum
      = (cs.map FS.size).sum := by rw [List.map_map]; rfl
  rw [sizeL_eq_sum]
  omega

/-! Membership in the children step. -/

theorem mem_lsStepChildren {p : Str} {cs : List FS} {pats : List Str} {e : Str × FS}
    (h : e ∈ lsStepChildren p cs pats) :
    (∃ c ∈ cs, e = (pjoin p c.name, c)) ∧ shouldSkip e.1 pats = false := by
  unfold lsStepChildren at h
  rcases List.mem_filter.mp h with ⟨h1, h2⟩
  rw [isort_mem] at h1
  rcases List.mem_map.mp h1 with ⟨c, hc, he⟩
  exact ⟨⟨c, hc, he.symm⟩, by simpa using h2⟩

theorem lsStepChildren_mem_of {p : Str} {cs : List FS} {pats : List Str} {c : FS}
    (hc : c ∈ cs) (hskip : shouldSkip (pjoin p c.name) pats = false) :
    (pjoin p c.name, c) ∈ lsStepChildren p cs pats := by
  unfold lsStepChildren
  refine List.mem_filter.mpr ⟨?_, by simpa using hskip⟩
  rw [isort_mem]
  exact List.mem_map.mpr ⟨c, hc, rfl⟩

theorem lsStepChildren_names_nodup {p : Str} {cs : List FS} {pats : List Str}
    (h : (cs.map FS.name).Nodup) :
    ((lsStepChildren p cs pats).map (fun e => e.2.name)).Nodup := by
  unfold lsStepChildren
  have h1 : ((isort (fun a b => strLeL a.1 b.1)
      (cs.map fun c => (pjoin p c.name, c))).map (fun e => e.2.name)).Nodup := by
    have hp := (isort_perm (fun a b => strLeL a.1 b.1)
      (cs.map fun c => (pjoin p c.name, c))).map (fun e => e.2.name)
    rw [hp.nodup_iff, List.map_map]
    simpa [Function.comp] using h
  exact h1.sublist ((List.filter_sublist _).map _)

/-! Queue-invariant machinery for the traversal loop. -/

theorem forall₂_append_my {α β : Type} {R : α → β → Prop} {a c : List α} {b d : List β}
    (h1 : List.Forall₂ R a b) (h2 : List.Forall₂ R c d) :
    List.Forall₂ R (a ++ c) (b ++ d) := by
  induction h1 with
  | nil => exact h2
  | cons hx _ ih => exact List.Forall₂.cons hx ih

theorem wfB_name {c : FS} (h : FS.wfB c = true) : goodNameB c.name = true := by
  cases c with
  | file n => exact h
  | dirFail n => exact h
  | dir n cs => exact (wfB_dir h).1

theorem entryR_eq {S : List Str} {r p : Str} (n : FS) (hne : S ≠ [])
    (hg : ∀ s ∈ S, goodNameB s = true) (hr : r ≠ []) (hp : p = joinAbs r S) :
    entryR r (p, n) = entryStr S n.isDir := by
  unfold entryR entryStr
  subst hp
  show (if n.isDir then _ else _) = _
  rw [relpathUnder_joinAbs hne hg hr]
  cases n.isDir with
  | false => rfl
  | true =>
    rw [if_pos rfl, if_pos rfl, if_neg ?_]
    rw [endsSlash_joinSegs hg]
    exact Bool.noConfusion

/-- One unfolding of the loop body for a passing, non-root head element. -/
theorem lsLoopF_cons_eq {r : Str} {pats : List Str} (fuel : Nat) {p : Str} (n : FS)
    (rest : List (Str × FS)) {c : Nat}
    (hc : c < MAX_FILES) (hskip : shouldSkip p pats = false) (hnr : (p == r) = false) :
    lsLoopF r pats (fuel + 1) ((p, n) :: rest) c =
      entryR r (p, n) ::
        lsLoopF r pats fuel (rest ++ nodeChildren p pats n)
          (if n.isDir then c else c + 1) := by
  show (if c < MAX_FILES then _ else _) = _
  rw [if_pos hc, hskip]
  show (if false = true then _ else _) = _
  rw [if_neg (by exact Bool.noConfusion)]
  show (if (p == r) = true then _ else _) ++ _ = _
  rw [hnr]
  show (if false = true then _ else _) ++ _ = _
  rw [if_neg (by exact Bool.noConfusion)]
  unfold entryR
  cases hd : FS.isDir n with
  | false => simp
  | true => simp

/-- The loop halts at the cap. -/
theorem lsLoopF_stop {r : Str} {pats : List Str} (fuel : Nat) (e : Str × FS)
    (rest : List (Str × FS)) {c : Nat} (hc : ¬ c < MAX_FILES) :
    lsLoopF r pats (fuel + 1) (e :: rest) c = [] := by
  rcases e with ⟨p, n⟩
  show (if c < MAX_FILES then _ else _) = _
  rw [if_neg hc]

/-- The children of a reached directory, paired with their ghost segment
lists, satisfy the queue invariant. -/
theorem children_elemInv {fs : FS} {r : Str} {pats : List Str} {p : Str} {nm : Str}
    {cs : List FS} {S : List Str}
    (hwf : FS.wfB fs = true)
    (hgood : ∀ s ∈ S, goodNameB s = true)
    (hp : p = joinAbs r S)
    (hreach : SegReach fs S (.dir nm cs))
    (hchain : chainPass r pats S) :
    List.Forall₂ (elemInv fs r pats) (lsStepChildren p cs pats)
      ((lsStepChildren p cs pats).map (fun e => S ++ [e.2.name])) := by
  rw [List.forall₂_map_right_iff, List.forall₂_same]
  intro e he
  rcases mem_lsStepChildren he with ⟨⟨c, hc, hce⟩, hskip⟩
  have hwfdir : FS.wfB (.dir nm cs) = true := SegReach_wf hwf hreach
  have hwfc : FS.wfB c = true := wfL_mem (wfB_dir hwfdir).2.2 hc
  have hgc : goodNameB c.name = true := wfB_name hwfc
  have he2 : e.2 = c := by rw [hce]
  have he1 : e.1 = pjoin p c.name := by rw [hce]
  have hgood' : ∀ s ∈ S ++ [e.2.name], goodNameB s = true := by
    intro s hs
    rcases List.mem_append.mp hs with hs | hs
    · exact hgood s hs
    · rcases List.mem_cons.mp hs with hs | hs
      · rw [hs, he2]; exact hgc
      · cases hs
  refine ⟨⟨by simp, hgood'⟩, ?_, ?_, ?_⟩
  · rw [joinAbs_concat, ← hp, he1, he2]
  · rw [he2]
    have : S ++ [FS.name c] = S ++ [c.name] := rfl
    exact hreach.cons hc
  · intro k hk
    rw [List.length_append, List.length_cons, List.length_nil] at hk
    by_cases hk2 : k < S.length
    · rw [List.take_append_of_le_length (by omega)]
      exact hchain k hk2
    · have hkeq : k = S.length := by omega
      rw [List.take_of_length_le (by rw [hkeq, List.length_append]; simp)]
      rw [joinAbs_concat, ← hp, he2]
      rw [← he1]
      exact hskip

/-- Own-path pass: an element satisfying the invariant is never skipped. -/
theorem elemInv_pass {fs : FS} {r : Str} {pats : List Str} {e : Str × FS} {S : List Str}
    (h : elemInv fs r pats e S) : shouldSkip e.1 pats = false := by
  rcases h with ⟨⟨hne, _⟩, hp, _, hchain⟩
  have hlen : 0 < S.length := by
    cases S with
    | nil => exact absurd rfl hne
    | cons a T => simp
  have := hchain (S.length - 1) (by omega)
  rw [show S.length - 1 + 1 = S.length from by omega, List.take_of_length_le (by omega)] at this
  rw [hp]
  exact this

set_option maxHeartbeats 1600000

/-- Soundness of the loop: every recorded entry is the entry string of a
descendant (through passing links) of some queue element. -/
theorem lsLoop_sound {fs : FS} {r : Str} {pats : List Str}
    (hwf : FS.wfB fs = true) (hr : r ≠ []) :
    ∀ (fuel : Nat) (q : List (Str × FS)) (G : List (List Str)) (c : Nat),
      List.Forall₂ (elemInv fs r pats) q G →
      ∀ x ∈ lsLoopF r pats fuel q c,
        ∃ S d, goodSegList S ∧ chainPass r pats S ∧ x = entryStr S d ∧
          ∃ g ∈ G, ∃ t, S = g ++ t := by
  intro fuel
  induction fuel with
  | zero => intro q G c _ x hx; cases hx
  | succ fuel ih =>
    intro q G c hinv x hx
    cases q with
    | nil => cases hx
    | cons e rest =>
      rcases e with ⟨p, n⟩
      cases G with
      | nil => cases hinv
      | cons S G' =>
        rcases List.forall₂_cons.mp hinv with ⟨hel, hrest⟩
        have hskip : shouldSkip p pats = false := elemInv_pass hel
        rcases hel with ⟨⟨hSne, hSg⟩, hp0, hreach0, hchain⟩
        have hp : p = joinAbs r S := hp0
        have hreach : SegReach fs S n := hreach0
        by_cases hc : c < MAX_FILES
        · rw [lsLoopF_cons_eq fuel n rest hc hskip
            (by rw [hp]; exact joinAbs_beq_root hSne hSg r)] at hx
          rcases List.mem_cons.mp hx with hx | hx
          · refine ⟨S, n.isDir, ⟨hSne, hSg⟩, hchain, ?_, S, List.mem_cons_self S G', [], by simp⟩
            rw [hx]
            exact entryR_eq n hSne hSg hr hp
          · have hinv2 : List.Forall₂ (elemInv fs r pats)
                (rest ++ nodeChildren p pats n) (G' ++ childSegs p pats S n) := by
              refine forall₂_append_my hrest ?_
              cases n with
              | file nm => exact List.Forall₂.nil
              | dirFail nm => exact List.Forall₂.nil
              | dir nm cs => exact children_elemInv hwf hSg hp hreach hchain
            rcases ih _ _ _ hinv2 x hx with ⟨Sx, d, hgx, hcx, hex, g, hg, t, ht⟩
            rcases List.mem_append.mp hg with hg | hg
            · exact ⟨Sx, d, hgx, hcx, hex, g, List.mem_cons_of_mem S hg, t, ht⟩
            · have hnmc : ∃ nmc, g = S ++ [nmc] := by
                cases n with
                | file nm => cases hg
                | dirFail nm => cases hg
                | dir nm cs =>
                  rcases List.mem_map.mp hg with ⟨e2, _, he2⟩
                  exact ⟨e2.2.name, he2.symm⟩
              rcases hnmc with ⟨nmc, rfl⟩
              exact ⟨Sx, d, hgx, hcx, hex, S, List.mem_cons_self S G', [nmc] ++ t,
                by rw [ht, List.append_assoc]⟩
        · rw [lsLoopF_stop fuel (p, n) rest hc] at hx
          cases hx

theorem lsLoopF_nil (r : Str) (pats : List Str) (fuel c : Nat) :
    lsLoopF r pats fuel [] c = [] := by
  cases fuel <;> rfl

/-- Unfold the first loop iteration: the root records no entry; if it is
skipped the scan is empty, otherwise its filtered children seed the queue. -/
theorem listDirectory_unfold (fs : FS) (r : Str) (pats : List Str) :
    listDirectory fs r pats =
      isort strLeL (if shouldSkip r pats = true then []
        else lsLoopF r pats (FS.size fs - 1) (nodeChildren r pats fs) 0) := by
  unfold listDirectory
  congr 1
  rcases hsz : FS.size fs with _ | f'
  · exact absurd hsz (by have := FS.size_pos fs; omega)
  · rw [show f' + 1 - 1 = f' from by omega]
    show (if 0 < MAX_FILES then _ else _) = _
    rw [if_pos (by decide)]
    by_cases hskip : shouldSkip r pats = true
    · simp [hskip, lsLoopF_nil]
    · have hskip' : shouldSkip r pats = false := by
        cases h : shouldSkip r pats with
        | false => rfl
        | true => exact absurd h hskip
      simp [hskip', lsLoopF_nil]

/-- The root's children queue satisfies the invariant with ghost lists
relative to the empty segment list. -/
theorem root_children_inv {fs : FS} {r : Str} {pats : List Str} (hwf : FS.wfB fs = true) :
    List.Forall₂ (elemInv fs r pats) (nodeChildren r pats fs) (childSegs r pats [] fs) := by
  cases fs with
  | file nm => exact List.Forall₂.nil
  | dirFail nm => exact List.Forall₂.nil
  | dir nm cs =>
    exact children_elemInv hwf (by intro s hs; cases hs) rfl SegReach.nil
      (by intro k hk; simp at hk)

/-- Every listed entry is the entry string of some reachable chain all of
whose links pass the skip predicate. -/
theorem listDirectory_sound {fs : FS} {r : Str} {pats : List Str}
    (hwf : FS.wfB fs = true) (hr : r ≠ []) :
    ∀ x ∈ listDirectory fs r pats,
      ∃ S d, goodSegList S ∧ chainPass r pats S ∧ x = entryStr S d := by
  intro x hx
  rw [listDirectory_unfold, isort_mem] at hx
  by_cases hskip : shouldSkip r pats = true
  · rw [if_pos hskip] at hx; cases hx
  · rw [if_neg hskip] at hx
    rcases lsLoop_sound hwf hr _ _ _ _ (root_children_inv hwf) x hx with
      ⟨S, d, hg, hchain, hxe, _⟩
    exact ⟨S, d, hg, hchain, hxe⟩

/-- Claim C4: for every well-formed tree, absolute root and every value of
the ignore patterns, no segment of any listed entry is a hidden name
(a name starting with `'.'` other than the bare `'.'`): a hidden entry and
everything below it never appear in the output. -/
theorem claim_C4 (fs : FS) (r : Str) (pats : List Str)
    (hwf : FS.wfB fs = true) (hr : r ≠ []) :
    ∀ x ∈ listDirectory fs r pats, ∀ seg ∈ splitSlash x, hiddenName seg = false := by
  intro x hx seg hseg
  rcases listDirectory_sound hwf hr x hx with ⟨S, d, ⟨hSne, hSg⟩, hchain, hxe⟩
  subst hxe
  rw [splitSlash_entryStr hSne hSg d] at hseg
  have hsegS : seg ∈ S ∨ seg = [] := by
    cases d with
    | false => exact Or.inl (by simpa using hseg)
    | true => simpa using hseg
  rcases hsegS with hs | hs
  · rcases List.mem_iff_getElem.mp hs with ⟨k, hk, hkeq⟩
    have hskipk := hchain k hk
    rcases shouldSkip_eq_false_iff.mp hskipk with ⟨hhid, _, _, _⟩
    have htake : S.take (k + 1) = S.take k ++ [S[k]] := by
      rw [List.take_succ, List.getElem?_eq_getElem hk]
      rfl
    rw [htake] at hhid
    rw [basenameOf_joinAbs (by
      intro s hs2
      rcases List.mem_append.mp hs2 with h2 | h2
      · exact hSg s (List.mem_of_mem_take h2)
      · rcases List.mem_cons.mp h2 with h2 | h2
        · rw [h2]; exact hSg _ (List.getElem_mem hk)
        · cases h2) r] at hhid
    rw [← hkeq]
    exact hhid
  · rw [hs]; rfl

/-- Claim C5: for every caller-supplied glob pattern and every listed entry,
neither the entry's own absolute traversal path nor that of any of its
ancestors matches the pattern (so a matching entry and its whole subtree are
absent); in particular with `ignore = ["*.log"]` and a root containing
`app.log` and `app.py`, only `app.py` is listed. -/
theorem claim_C5 :
    (∀ (fs : FS) (r : Str) (pats : List Str), FS.wfB fs = true → r ≠ [] →
      ∀ x ∈ listDirectory fs r pats, ∀ pat ∈ pats, ∀ k, k < (entrySegs x).length →
        fnmatch (joinAbs r ((entrySegs x).take (k + 1))) pat = false) ∧
    listDirectory fsLog (strOf "/r") [strOf "*.log"] = [strOf "app.py"] := by
  constructor
  · intro fs r pats hwf hr x hx pat hpat k hk
    rcases listDirectory_sound hwf hr x hx with ⟨S, d, ⟨hSne, hSg⟩, hchain, hxe⟩
    subst hxe
    rw [entrySegs_entryStr hSne hSg d] at hk ⊢
    have hskipk := hchain k hk
    rcases shouldSkip_eq_false_iff.mp hskipk with ⟨_, _, _, hany⟩
    have := List.any_eq_false.mp hany pat hpat
    simpa using this
  · decide

theorem claim_C4_witness :
    FS.wfB fsHidden = true ∧ strOf "/r" ≠ ([] : Str) ∧
    (∀ x ∈ listDirectory fsHidden (strOf "/r") [],
      ∀ seg ∈ splitSlash x, hiddenName seg = false) :=
  ⟨by decide, by decide, claim_C4 fsHidden (strOf "/r") [] (by decide) (by decide)⟩

theorem claim_C5_witness :
    FS.wfB fsLog = true ∧ strOf "/r" ≠ ([] : Str) ∧
    (∀ x ∈ listDirectory fsLog (strOf "/r") [strOf "*.log"], ∀ pat ∈ [strOf "*.log"],
      ∀ k, k < (entrySegs x).length →
        fnmatch (joinAbs (strOf "/r") ((entrySegs x).take (k + 1))) pat = false) :=
  ⟨by decide, by decide, claim_C5.1 fsLog (strOf "/r") [strOf "*.log"] (by decide) (by decide)⟩

/-! Failing directories behave exactly like empty readable directories. -/

theorem FS.scrub_name : ∀ n : FS, (FS.scrub n).name = n.name
  | .file _ => rfl
  | .dirFail _ => rfl
  | .dir _ _ => rfl

theorem FS.scrub_isDir : ∀ n : FS, (FS.scrub n).isDir = n.isDir
  | .file _ => rfl
  | .dirFail _ => rfl
  | .dir _ _ => rfl

theorem scrubL_eq_map : ∀ cs : List FS, FS.scrubL cs = cs.map FS.scrub
  | [] => rfl
  | c :: cs => by
    show FS.scrub c :: FS.scrubL cs = _
    rw [scrubL_eq_map cs]
    rfl

mutual
theorem scrub_size : ∀ n : FS, FS.size (FS.scrub n) = FS.size n
  | .file _ => rfl
  | .dirFail _ => rfl
  | .dir _ cs => by
    show 1 + FS.sizeL (FS.scrubL cs) = 1 + FS.sizeL cs
    rw [scrub_sizeL cs]
theorem scrub_sizeL : ∀ cs : List FS, FS.sizeL (FS.scrubL cs) = FS.sizeL cs
  | [] => rfl
  | c :: cs => by
    show FS.size (FS.scrub c) + FS.sizeL (FS.scrubL cs) = FS.size c + FS.sizeL cs
    rw [scrub_size c, scrub_sizeL cs]
end

theorem lsStepChildren_scrub (p : Str) (cs : List FS) (pats : List Str) :
    lsStepChildren p (FS.scrubL cs) pats =
      (lsStepChildren p cs pats).map (fun e => (e.1, FS.scrub e.2)) := by
  unfold lsStepChildren
  rw [scrubL_eq_map]
  have h1 : (cs.map FS.scrub).map (fun c => (pjoin p c.name, c)) =
      (cs.map (fun c => (pjoin p c.name, c))).map (fun e => (e.1, FS.scrub e.2)) := by
    rw [List.map_map, List.map_map]
    apply List.map_congr_left
    intro c _
    simp [Function.comp, FS.scrub_name]
  rw [h1]
  rw [isort_map (fun a b => rfl)]
  rw [List.filter_map]
  rfl

theorem lsLoopF_scrub (r : Str) (pats : List Str) :
    ∀ (fuel : Nat) (q : List (Str × FS)) (c : Nat),
      lsLoopF r pats fuel (q.map (fun e => (e.1, FS.scrub e.2))) c =
        lsLoopF r pats fuel q c := by
  intro fuel
  induction fuel with
  | zero => intro q c; rfl
  | succ fuel ih =>
    intro q c
    cases q with
    | nil => rfl
    | cons e rest =>
      rcases e with ⟨p, n⟩
      cases n with
      | file nm =>
        show lsLoopF r pats (fuel + 1) ((p, FS.file nm) :: rest.map _) c = _
        simp only [lsLoopF, nodeChildren, List.append_nil]
        split
        · split
          · exact ih rest c
          · exact congrArg _ (ih rest _)
        · rfl
      | dirFail nm =>
        show lsLoopF r pats (fuel + 1) ((p, FS.dir nm []) :: rest.map _) c = _
        simp only [lsLoopF, nodeChildren, FS.isDir, lsStepChildren, List.map_nil, isort,
          List.filter_nil, List.append_nil]
        split
        · split
          · exact ih rest c
          · exact congrArg _ (ih rest _)
        · rfl
      | dir nm cs =>
        show lsLoopF r pats (fuel + 1) ((p, FS.dir nm (FS.scrubL cs)) :: rest.map _) c = _
        simp only [lsLoopF, nodeChildren, FS.isDir, lsStepChildren_scrub]
        split
        · split
          · exact ih rest c
          · refine congrArg _ ?_
            rw [← List.map_append]
            exact ih (rest ++ lsStepChildren p cs pats) _
        · rfl

theorem listDirectory_scrub (fs : FS) (r : Str) (pats : List Str) :
    listDirectory (FS.scrub fs) r pats = listDirectory fs r pats := by
  unfold listDirectory
  rw [scrub_size]
  have h : [(r, FS.scrub fs)] = [(r, fs)].map (fun e => (e.1, FS.scrub e.2)) := rfl
  rw [h, lsLoopF_scrub]

theorem forward_some_eq (fs : FS) (r : Str) (pats : List Str) :
    forward (some fs) r pats =
      if (!fs.isDir) = true then strOf "Error: Path '" ++ r ++ strOf "' is not a directory"
      else (if scanTruncated fs r pats = true then TRUNCATED_MESSAGE else []) ++
        printTree (createFileTree (listDirectory fs r pats)) r := rfl

theorem scanTruncated_scrub (fs : FS) (r : Str) (pats : List Str) :
    scanTruncated (FS.scrub fs) r pats = scanTruncated fs r pats := by
  unfold scanTruncated
  rw [listDirectory_scrub]

/-- Claim C6: a directory whose listing raises (`PermissionError`, or
`FileNotFoundError` because it vanished after being enqueued) contributes
zero children and the traversal continues: the whole call behaves exactly as
if every such directory were an empty readable directory, and — the two
top-level checks aside — the call always returns the rendered listing of the
accessible portion, never a failure. -/
theorem claim_C6 (fs : FS) (r : Str) (pats : List Str) :
    listDirectory (FS.scrub fs) r pats = listDirectory fs r pats ∧
    forward (some (FS.scrub fs)) r pats = forward (some fs) r pats ∧
    (FS.isDir fs = true → forward (some fs) r pats =
      (if scanTruncated fs r pats then TRUNCATED_MESSAGE else []) ++
        printTree (createFileTree (listDirectory fs r pats)) r) := by
  refine ⟨listDirectory_scrub fs r pats, ?_, ?_⟩
  · rw [forward_some_eq, forward_some_eq, FS.scrub_isDir, scanTruncated_scrub,
      listDirectory_scrub]
  · intro hd
    rw [forward_some_eq, hd]
    rfl

/-! Incomparability of ghost segment lists: distinct queue elements have
distinct entries, giving a duplicate-free scan. -/

theorem segsIncomp_cross {S T : List Str} (nmc : Str) (h : segsIncomp S T) :
    segsIncomp T (S ++ [nmc]) := by
  rcases h with ⟨h1, h2⟩
  constructor
  · rintro ⟨t, ht⟩
    by_cases hlen : T.length ≤ S.length
    · apply h2
      refine ⟨S.drop T.length, ?_⟩
      have h4 := congrArg (List.take T.length) ht
      rw [List.take_append_of_le_length hlen, List.take_left] at h4
      calc S = S.take T.length ++ S.drop T.length := (List.take_append_drop _ _).symm
        _ = T ++ S.drop T.length := by rw [h4]
    · have hlen2 := congrArg List.length ht
      simp [List.length_append] at hlen2
      have ht0 : t = [] := by
        have : t.length = 0 := by omega
        exact List.length_eq_zero.mp this
      subst ht0
      rw [List.append_nil] at ht
      exact h1 ⟨[nmc], ht.symm⟩
  · rintro ⟨t, ht⟩
    apply h1
    exact ⟨[nmc] ++ t, by rw [ht, List.append_assoc]⟩

theorem segsIncomp_siblings {S : List Str} {n₁ n₂ : Str} (hne : n₁ ≠ n₂) :
    segsIncomp (S ++ [n₁]) (S ++ [n₂]) := by
  constructor
  · rintro ⟨t, ht⟩
    rw [List.append_assoc] at ht
    have h2 := List.append_cancel_left ht
    cases t with
    | nil =>
      rw [List.append_nil] at h2
      exact hne (by simpa using h2.symm)
    | cons x xs =>
      simp at h2
  · rintro ⟨t, ht⟩
    rw [List.append_assoc] at ht
    have h2 := List.append_cancel_left ht
    cases t with
    | nil =>
      rw [List.append_nil] at h2
      exact hne (by simpa using h2)
    | cons x xs =>
      simp at h2

theorem childSegs_pairwise {fs : FS} {pats : List Str} (p : Str) {S : List Str}
    {n : FS} (hwf : FS.wfB fs = true) (hreach : SegReach fs S n) :
    (childSegs p pats S n).Pairwise segsIncomp := by
  cases n with
  | file nm => exact List.Pairwise.nil
  | dirFail nm => exact List.Pairwise.nil
  | dir nm cs =>
    have hnodup : ((lsStepChildren p cs pats).map (fun e => e.2.name)).Nodup :=
      lsStepChildren_names_nodup (nodupB_iff.mp (wfB_dir (SegReach_wf hwf hreach)).2.1)
    show ((lsStepChildren p cs pats).map (fun e => S ++ [e.2.name])).Pairwise segsIncomp
    rw [List.pairwise_map]
    have h2 : (lsStepChildren p cs pats).Pairwise (fun a b => a.2.name ≠ b.2.name) := by
      have h3 : ((lsStepChildren p cs pats).map (fun e => e.2.name)).Pairwise
          (fun a b => a ≠ b) := hnodup
      rw [List.pairwise_map] at h3
      exact h3
    exact h2.imp (fun hne => segsIncomp_siblings hne)

theorem queue_pairwise_step {G' : List (List Str)} {S : List Str} {p : Str}
    {pats : List Str} {n : FS} {fs : FS}
    (hwf : FS.wfB fs = true) (hreach : SegReach fs S n)
    (hseen : ∀ T ∈ G', segsIncomp S T) (hpw : G'.Pairwise segsIncomp) :
    (G' ++ childSegs p pats S n).Pairwise segsIncomp := by
  rw [List.pairwise_append]
  refine ⟨hpw, childSegs_pairwise p hwf hreach, ?_⟩
  intro T hT g hg
  have hnmc : ∃ nmc, g = S ++ [nmc] := by
    cases n with
    | file nm => cases hg
    | dirFail nm => cases hg
    | dir nm cs =>
      rcases List.mem_map.mp hg with ⟨e2, _, he2⟩
      exact ⟨e2.2.name, he2.symm⟩
  rcases hnmc with ⟨nmc, rfl⟩
  exact segsIncomp_cross nmc (hseen T hT)

/-- The loop never records the same entry twice. -/
theorem lsLoop_nodup {fs : FS} {r : Str} {pats : List Str}
    (hwf : FS.wfB fs = true) (hr : r ≠ []) :
    ∀ (fuel : Nat) (q : List (Str × FS)) (G : List (List Str)) (c : Nat),
      List.Forall₂ (elemInv fs r pats) q G →
      G.Pairwise segsIncomp →
      (lsLoopF r pats fuel q c).Nodup := by
  intro fuel
  induction fuel with
  | zero => intro q G c _ _; exact List.nodup_nil
  | succ fuel ih =>
    intro q G c hinv hpw
    cases q with
    | nil => rw [lsLoopF_nil]; exact List.nodup_nil
    | cons e rest =>
      rcases e with ⟨p, n⟩
      cases G with
      | nil => cases hinv
      | cons S G' =>
        rcases List.forall₂_cons.mp hinv with ⟨hel, hrest⟩
        have hskip := elemInv_pass hel
        rcases hel with ⟨⟨hSne, hSg⟩, hp0, hreach0, hchain⟩
        have hp : p = joinAbs r S := hp0
        have hreach : SegReach fs S n := hreach0
        rcases List.pairwise_cons.mp hpw with ⟨hseen, hpw'⟩
        by_cases hc : c < MAX_FILES
        · rw [lsLoopF_cons_eq fuel n rest hc hskip
            (by rw [hp]; exact joinAbs_beq_root hSne hSg r)]
          have hinv2 : List.Forall₂ (elemInv fs r pats)
              (rest ++ nodeChildren p pats n) (G' ++ childSegs p pats S n) := by
            refine forall₂_append_my hrest ?_
            cases n with
            | file nm => exact List.Forall₂.nil
            | dirFail nm => exact List.Forall₂.nil
            | dir nm cs => exact children_elemInv hwf hSg hp hreach hchain
          have hpw2 : (G' ++ childSegs p pats S n).Pairwise segsIncomp :=
            queue_pairwise_step hwf hreach hseen hpw'
          refine List.nodup_cons.mpr ⟨?_, ih _ _ _ hinv2 hpw2⟩
          intro hmem
          rcases lsLoop_sound hwf hr fuel _ _ _ hinv2 _ hmem with
            ⟨Sx, d, ⟨hxne, hxg⟩, _, hex, g, hg, t, ht⟩
          rw [entryR_eq n hSne hSg hr hp] at hex
          rcases entryStr_inj hSne hSg hxne hxg hex with ⟨hSS, _⟩
          subst ht
          rcases List.mem_append.mp hg with hg | hg
          · exact (hseen g hg).2 ⟨t, hSS⟩
          · have hnmc : ∃ nmc, g = S ++ [nmc] := by
              cases n with
              | file nm => cases hg
              | dirFail nm => cases hg
              | dir nm cs =>
                rcases List.mem_map.mp hg with ⟨e2, _, he2⟩
                exact ⟨e2.2.name, he2.symm⟩
            rcases hnmc with ⟨nmc, rfl⟩
            have hlen := congrArg List.length hSS
            rw [List.length_append, List.length_append] at hlen
            simp only [List.length_cons, List.length_nil] at hlen
            omega
        · rw [lsLoopF_stop fuel (p, n) rest hc]
          exact List.nodup_nil

/-- The final, sorted flat list contains no duplicate entry. -/
theorem listDirectory_nodup {fs : FS} {r : Str} {pats : List Str}
    (hwf : FS.wfB fs = true) (hr : r ≠ []) : (listDirectory fs r pats).Nodup := by
  rw [listDirectory_unfold]
  apply isort_nodup
  by_cases hskip : shouldSkip r pats = true
  · rw [if_pos hskip]; exact List.nodup_nil
  · rw [if_neg hskip]
    exact lsLoop_nodup hwf hr _ _ _ _ (root_children_inv hwf)
      (childSegs_pairwise r hwf SegReach.nil)

/-! Uniqueness of sibling names in the rendered tree. -/

theorem namesOk1_eq (nm pathR : Str) (d : Bool) (cs : List TreeNode) :
    namesOk1 (.mk nm pathR d cs) = namesOkB cs := rfl

theorem namesOkB_iff {L : List TreeNode} :
    namesOkB L = true ↔ (L.map TreeNode.name).Nodup ∧ ∀ t ∈ L, namesOk1 t = true := by
  induction L with
  | nil => simp [namesOkB]
  | cons t ts ih =>
    show (!((ts.map TreeNode.name).contains t.name) && namesOk1 t && namesOkB ts) = true ↔ _
    rw [Bool.and_assoc, Bool.and_eq_true, Bool.and_eq_true, ih]
    simp only [List.map_cons, List.nodup_cons, Bool.not_eq_true']
    constructor
    · intro ⟨h1, h2, h3, h4⟩
      exact ⟨⟨by simpa using h1, h3⟩, fun u hu => by
        rcases List.mem_cons.mp hu with hu | hu
        · rw [hu]; exact h2
        · exact h4 u hu⟩
    · intro ⟨⟨h1, h3⟩, h4⟩
      refine ⟨by simpa using h1, h4 t (List.mem_cons_self t ts), h3, fun u hu =>
        h4 u (List.mem_cons_of_mem t hu)⟩

theorem set_self_of_getElem {α : Type} :
    ∀ (L : List α) (i : Nat) (x : α), L[i]? = some x → L.set i x = L
  | [], i, x, h => by cases h
  | a :: t, 0, x, h => by
    have : a = x := by simpa using h
    rw [← this]
    rfl
  | a :: t, i + 1, x, h => by
    have h2 : t[i]? = some x := by simpa using h
    show a :: t.set i x = a :: t
    rw [set_self_of_getElem t i x h2]

theorem namesOkB_set {L : List TreeNode} {i : Nat} {node node' : TreeNode}
    (hget : L[i]? = some node) (hname : node'.name = node.name)
    (hok1 : namesOk1 node' = true) (h : namesOkB L = true) :
    namesOkB (L.set i node') = true := by
  rw [namesOkB_iff] at h ⊢
  constructor
  · have hmap : (L.set i node').map TreeNode.name = L.map TreeNode.name := by
      rw [List.map_set, hname]
      apply set_self_of_getElem
      rw [List.getElem?_map, hget]
      rfl
    rw [hmap]
    exact h.1
  · intro t ht
    rcases List.mem_or_eq_of_mem_set ht with ht | ht
    · exact h.2 t ht
    · rw [ht]; exact hok1

theorem findIdx_none_name {level : List TreeNode} {part : Str}
    (hfind : level.findIdx? (fun node => node.name == part) = none) :
    part ∉ level.map TreeNode.name := by
  intro hmem
  rcases List.mem_map.mp hmem with ⟨node, hn, he⟩
  have := List.findIdx?_eq_none_iff.mp hfind node hn
  rw [he] at this
  simp at this

theorem namesOkB_append_new {level : List TreeNode} {node' : TreeNode}
    (h : namesOkB level = true) (hnew : node'.name ∉ level.map TreeNode.name)
    (hok1 : namesOk1 node' = true) :
    namesOkB (level ++ [node']) = true := by
  rw [namesOkB_iff] at h ⊢
  constructor
  · rw [List.map_append]
    rw [List.nodup_append]
    refine ⟨h.1, by simp, ?_⟩
    intro a ha hb
    have : a = node'.name := by simpa using hb
    rw [this] at ha
    exact hnew ha
  · intro t ht
    rcases List.mem_append.mp ht with ht | ht
    · exact h.2 t ht
    · have : t = node' := by simpa using ht
      rw [this]
      exact hok1

theorem namesOkB_insertParts :
    ∀ (parts : List Str) (curPath : Str) (endsSl : Bool) (level : List TreeNode),
      namesOkB level = true → namesOkB (insertParts parts curPath endsSl level) = true := by
  intro parts
  induction parts with
  | nil => intro _ _ level h; exact h
  | cons part rest ih =>
    intro curPath endsSl level hlev
    unfold insertParts
    by_cases hpe : part = []
    · rw [if_pos hpe]
      exact ih _ _ _ hlev
    · rw [if_neg hpe]
      cases hfind : level.findIdx? (fun node => node.name == part) with
      | some i =>
        dsimp only
        cases hget : level[i]? with
        | some node =>
          dsimp only
          by_cases hdir : node.isDirectory = true
          · rw [if_pos hdir]
            refine namesOkB_set hget rfl ?_ hlev
            rw [namesOk1_eq]
            refine ih _ _ node.children ?_
            have hmem : node ∈ level := by
              rcases List.getElem?_eq_some.mp hget with ⟨hlt, hg⟩
              rw [← hg]
              exact List.getElem_mem hlt
            have h5 := (namesOkB_iff.mp hlev).2 node hmem
            rcases node with ⟨nm2, p2, d2, cs2⟩
            exact h5
          · rw [if_neg hdir]
            exact hlev
        | none => exact hlev
      | none =>
        dsimp only
        by_cases hd : (!rest.isEmpty || endsSl) = true
        · rw [if_pos hd]
          refine namesOkB_append_new hlev (findIdx_none_name hfind) ?_
          rw [namesOk1_eq]
          exact ih _ _ [] rfl
        · rw [if_neg hd]
          exact namesOkB_append_new hlev (findIdx_none_name hfind) rfl

theorem namesOkB_createFileTree (paths : List Str) :
    namesOkB (createFileTree paths) = true := by
  unfold createFileTree
  suffices h : ∀ (ps : List Str) (acc : List TreeNode), namesOkB acc = true →
      namesOkB (ps.foldl (fun root p => insertParts (splitSlash p) [] (endsSlash p) root) acc)
        = true by
    exact h paths [] rfl
  intro ps
  induction ps with
  | nil => intro acc h; exact h
  | cons p ps ih =>
    intro acc h
    exact ih _ (namesOkB_insertParts _ _ _ _ h)

/-- Claim C7 (amended): the flat entry list is strictly lexicographically
sorted, and within every node's children of the tree built from it the names
are unique. -/
theorem claim_C7_amended (fs : FS) (r : Str) (pats : List Str)
    (hwf : FS.wfB fs = true) (hr : r ≠ []) :
    (listDirectory fs r pats).Pairwise (fun a b => strLtL a b = true) ∧
    namesOkB (createFileTree (listDirectory fs r pats)) = true := by
  constructor
  · have hle : (listDirectory fs r pats).Pairwise (fun a b => strLeL a b = true) := by
      unfold listDirectory
      exact isort_pairwise strLeL_of_not (fun hab hbc => strLeL_trans hab hbc) _
    have hnd : (listDirectory fs r pats).Nodup := listDirectory_nodup hwf hr
    refine (hle.and hnd).imp ?_
    intro a b hab
    exact strLtL_of_le_of_ne hab.1 hab.2
  · exact namesOkB_createFileTree _

theorem claim_C7_witness :
    FS.wfB fsBang = true ∧ strOf "/r" ≠ ([] : Str) ∧
    ((listDirectory fsBang (strOf "/r") []).Pairwise (fun a b => strLtL a b = true) ∧
      namesOkB (createFileTree (listDirectory fsBang (strOf "/r") [])) = true) :=
  ⟨by decide, by decide, claim_C7_amended fsBang (strOf "/r") [] (by decide) (by decide)⟩

theorem claim_C6_witness :
    listDirectory fsFail (strOf "/r") [] = [strOf "locked/", strOf "ok"] ∧
    FS.isDir fsFail = true ∧
    forward (some fsFail) (strOf "/r") [] =
      (if scanTruncated fsFail (strOf "/r") [] then TRUNCATED_MESSAGE else []) ++
        printTree (createFileTree (listDirectory fsFail (strOf "/r") [])) (strOf "/r") :=
  ⟨by decide, by decide, (claim_C6 fsFail (strOf "/r") []).2.2 (by decide)⟩

/-! Counting lemmas: number of files and of entries recorded by the loop. -/

theorem filter_map_sum_fCntL (pats : List Str) (p : Str) (cs : List FS) :
    (((cs.map (fun c => (pjoin p c.name, c))).filter (fun e => !shouldSkip e.1 pats)).map
      (fun e => fCnt pats e.1 e.2)).sum = fCntL pats p cs := by
  induction cs with
  | nil => rfl
  | cons c cs ih =>
    show ((((pjoin p c.name, c) :: cs.map (fun c => (pjoin p c.name, c))).filter
      (fun e => !shouldSkip e.1 pats)).map (fun e => fCnt pats e.1 e.2)).sum =
      (if shouldSkip (pjoin p c.name) pats then 0 else fCnt pats (pjoin p c.name) c)
        + fCntL pats p cs
    rw [List.filter_cons]
    by_cases hs : shouldSkip (pjoin p c.name) pats = true
    · have h2 : (!shouldSkip ((pjoin p c.name, c) : Str × FS).1 pats) = false := by
        show (!shouldSkip (pjoin p c.name) pats) = false
        rw [hs]; rfl
      rw [h2]
      simp only [Bool.false_eq_true, if_neg, not_false_iff, hs, if_pos, ih]
      omega
    · have hsf : shouldSkip (pjoin p c.name) pats = false := by
        cases hv : shouldSkip (pjoin p c.name) pats with
        | false => rfl
        | true => exact absurd hv hs
      have h2 : (!shouldSkip ((pjoin p c.name, c) : Str × FS).1 pats) = true := by
        show (!shouldSkip (pjoin p c.name) pats) = true
        rw [hsf]; rfl
      rw [h2]
      simp only [if_pos, List.map_cons, List.sum_cons, ih, hsf, Bool.false_eq_true, if_neg,
        not_false_iff]

theorem filter_map_sum_eCntL (pats : List Str) (p : Str) (cs : List FS) :
    (((cs.map (fun c => (pjoin p c.name, c))).filter (fun e => !shouldSkip e.1 pats)).map
      (fun e => eCnt pats e.1 e.2)).sum = eCntL pats p cs := by
  induction cs with
  | nil => rfl
  | cons c cs ih =>
    show ((((pjoin p c.name, c) :: cs.map (fun c => (pjoin p c.name, c))).filter
      (fun e => !shouldSkip e.1 pats)).map (fun e => eCnt pats e.1 e.2)).sum =
      (if shouldSkip (pjoin p c.name) pats then 0 else eCnt pats (pjoin p c.name) c)
        + eCntL pats p cs
    rw [List.filter_cons]
    by_cases hs : shouldSkip (pjoin p c.name) pats = true
    · have h2 : (!shouldSkip ((pjoin p c.name, c) : Str × FS).1 pats) = false := by
        show (!shouldSkip (pjoin p c.name) pats) = false
        rw [hs]; rfl
      rw [h2]
      simp only [Bool.false_eq_true, if_neg, not_false_iff, hs, if_pos, ih]
      omega
    · have hsf : shouldSkip (pjoin p c.name) pats = false := by
        cases hv : shouldSkip (pjoin p c.name) pats with
        | false => rfl
        | true => exact absurd hv hs
      have h2 : (!shouldSkip ((pjoin p c.name, c) : Str × FS).1 pats) = true := by
        show (!shouldSkip (pjoin p c.name) pats) = true
        rw [hsf]; rfl
      rw [h2]
      simp only [if_pos, List.map_cons, List.sum_cons, ih, hsf, Bool.false_eq_true, if_neg,
        not_false_iff]

theorem fCnt_children_sum (pats : List Str) (p : Str) (cs : List FS) :
    ((lsStepChildren p cs pats).map (fun e => fCnt pats e.1 e.2)).sum = fCntL pats p cs := by
  unfold lsStepChildren
  rw [← filter_map_sum_fCntL pats p cs]
  have hperm := ((isort_perm (fun a b : Str × FS => strLeL a.1 b.1)
    (cs.map (fun c => (pjoin p c.name, c)))).filter (fun e => !shouldSkip e.1 pats)).map
    (fun e => fCnt pats e.1 e.2)
  exact hperm.sum_eq

theorem eCnt_children_sum (pats : List Str) (p : Str) (cs : List FS) :
    ((lsStepChildren p cs pats).map (fun e => eCnt pats e.1 e.2)).sum = eCntL pats p cs := by
  unfold lsStepChildren
  rw [← filter_map_sum_eCntL pats p cs]
  have hperm := ((isort_perm (fun a b : Str × FS => strLeL a.1 b.1)
    (cs.map (fun c => (pjoin p c.name, c)))).filter (fun e => !shouldSkip e.1 pats)).map
    (fun e => eCnt pats e.1 e.2)
  exact hperm.sum_eq

theorem qSize_zero_nil {q : List (Str × FS)} (h : qSize q ≤ 0) : q = [] := by
  cases q with
  | nil => rfl
  | cons e rest =>
    rw [qSize_cons] at h
    have := FS.size_pos e.2
    omega

/-- Without truncation the loop records exactly one entry per reachable
non-root element: its length is the sum of the entry counts of the queue. -/
theorem lsLoop_length {fs : FS} {r : Str} {pats : List Str}
    (hwf : FS.wfB fs = true) (hr : r ≠ []) :
    ∀ (fuel : Nat) (q : List (Str × FS)) (G : List (List Str)) (c : Nat),
      List.Forall₂ (elemInv fs r pats) q G →
      qSize q ≤ fuel →
      c + (q.map (fun e => fCnt pats e.1 e.2)).sum < MAX_FILES →
      (lsLoopF r pats fuel q c).length = (q.map (fun e => eCnt pats e.1 e.2)).sum := by
  intro fuel
  induction fuel with
  | zero =>
    intro q G c _ hfuel _
    rw [qSize_zero_nil hfuel]
    rfl
  | succ fuel ih =>
    intro q G c hinv hfuel hcnt
    cases q with
    | nil => rfl
    | cons e rest =>
      rcases e with ⟨p, n⟩
      cases G with
      | nil => cases hinv
      | cons S G' =>
        rcases List.forall₂_cons.mp hinv with ⟨hel, hrest⟩
        have hskip := elemInv_pass hel
        rcases hel with ⟨⟨hSne, hSg⟩, hp0, hreach0, hchain⟩
        have hp : p = joinAbs r S := hp0
        have hreach : SegReach fs S n := hreach0
        rw [List.map_cons, List.sum_cons] at hcnt ⊢
        rw [qSize_cons] at hfuel
        dsimp only at hfuel hcnt ⊢
        have hc : c < MAX_FILES := by omega
        rw [lsLoopF_cons_eq fuel n rest hc hskip
          (by rw [hp]; exact joinAbs_beq_root hSne hSg r)]
        rw [List.length_cons]
        cases n with
        | file nm =>
          have hq : rest ++ nodeChildren p pats (FS.file nm) = rest := List.append_nil rest
          rw [hq]
          have hcond : (if (FS.file nm).isDir = true then c else c + 1) = c + 1 := rfl
          rw [hcond]
          have hfuel2 : qSize rest ≤ fuel := by
            have h5 : 0 < FS.size (FS.file nm) := FS.size_pos _
            omega
          have h1 : fCnt pats p (FS.file nm) = 1 := rfl
          rw [h1] at hcnt
          rw [ih rest G' (c + 1) hrest hfuel2 (by omega)]
          have h2 : eCnt pats p (FS.file nm) = 1 := rfl
          rw [h2]
          omega
        | dirFail nm =>
          have hq : rest ++ nodeChildren p pats (FS.dirFail nm) = rest := List.append_nil rest
          rw [hq]
          have hcond : (if (FS.dirFail nm).isDir = true then c else c + 1) = c := rfl
          rw [hcond]
          have hfuel2 : qSize rest ≤ fuel := by
            have h5 : 0 < FS.size (FS.dirFail nm) := FS.size_pos _
            omega
          have h1 : fCnt pats p (FS.dirFail nm) = 0 := rfl
          rw [h1] at hcnt
          rw [ih rest G' c hrest hfuel2 (by omega)]
          have h2 : eCnt pats p (FS.dirFail nm) = 1 := rfl
          rw [h2]
          omega
        | dir nm cs =>
          have hch : nodeChildren p pats (FS.dir nm cs) = lsStepChildren p cs pats := rfl
          rw [hch]
          have hcond : (if (FS.dir nm cs).isDir = true then c else c + 1) = c := rfl
          rw [hcond]
          have hinv2 : List.Forall₂ (elemInv fs r pats)
              (rest ++ lsStepChildren p cs pats)
              (G' ++ (lsStepChildren p cs pats).map (fun e => S ++ [e.2.name])) :=
            forall₂_append_my hrest (children_elemInv hwf hSg hp hreach hchain)
          have hfuel2 : qSize (rest ++ lsStepChildren p cs pats) ≤ fuel := by
            rw [qSize_append]
            have h3 := qSize_lsStepChildren p cs pats
            have h4 : FS.size (FS.dir nm cs) = 1 + FS.sizeL cs := rfl
            rw [h4] at hfuel
            omega
          have h1 : fCnt pats p (FS.dir nm cs) = fCntL pats p cs := rfl
          rw [h1] at hcnt
          have hcnt2 : c + ((rest ++ lsStepChildren p cs pats).map
              (fun e => fCnt pats e.1 e.2)).sum < MAX_FILES := by
            rw [List.map_append, List.sum_append, fCnt_children_sum]
            omega
          rw [ih _ _ c hinv2 hfuel2 hcnt2]
          have h2 : eCnt pats p (FS.dir nm cs) = 1 + eCntL pats p cs := rfl
          rw [h2, List.map_append, List.sum_append, eCnt_children_sum]
          omega

/-- Completeness: without truncation, the entry of every descendant of a
queue element reached through passing links is recorded. -/
theorem lsLoop_complete {fs : FS} {r : Str} {pats : List Str}
    (hwf : FS.wfB fs = true) (hr : r ≠ []) :
    ∀ (fuel : Nat) (q : List (Str × FS)) (G : List (List Str)) (c : Nat),
      List.Forall₂ (elemInv fs r pats) q G →
      qSize q ≤ fuel →
      c + (q.map (fun e => fCnt pats e.1 e.2)).sum < MAX_FILES →
      ∀ e ∈ q, ∀ tgt, DescFrom pats e tgt →
        entryR r tgt ∈ lsLoopF r pats fuel q c := by
  intro fuel
  induction fuel with
  | zero =>
    intro q G c _ hfuel _ e he
    rw [qSize_zero_nil hfuel] at he
    cases he
  | succ fuel ih =>
    intro q G c hinv hfuel hcnt e he tgt hdesc
    cases q with
    | nil => cases he
    | cons e0 rest =>
      rcases e0 with ⟨p, n⟩
      cases G with
      | nil => cases hinv
      | cons S G' =>
        rcases List.forall₂_cons.mp hinv with ⟨hel, hrest⟩
        have hskip := elemInv_pass hel
        rcases hel with ⟨⟨hSne, hSg⟩, hp0, hreach0, hchain⟩
        have hp : p = joinAbs r S := hp0
        have hreach : SegReach fs S n := hreach0
        rw [List.map_cons, List.sum_cons] at hcnt
        rw [qSize_cons] at hfuel
        dsimp only at hfuel hcnt
        have hc : c < MAX_FILES := by omega
        rw [lsLoopF_cons_eq fuel n rest hc hskip
          (by rw [hp]; exact joinAbs_beq_root hSne hSg r)]
        have hq2 : List.Forall₂ (elemInv fs r pats)
            (rest ++ nodeChildren p pats n) (G' ++ childSegs p pats S n) := by
          refine forall₂_append_my hrest ?_
          cases n with
          | file nm => exact List.Forall₂.nil
          | dirFail nm => exact List.Forall₂.nil
          | dir nm cs => exact children_elemInv hwf hSg hp hreach hchain
        have hfuel2 : qSize (rest ++ nodeChildren p pats n) ≤ fuel := by
          rw [qSize_append]
          have h3 : qSize (nodeChildren p pats n) + 1 ≤ FS.size n := by
            cases n with
            | file nm =>
              show qSize [] + 1 ≤ 1
              simp [qSize]
            | dirFail nm =>
              show qSize [] + 1 ≤ 1
              simp [qSize]
            | dir nm cs =>
              show qSize (lsStepChildren p cs pats) + 1 ≤ 1 + FS.sizeL cs
              have := qSize_lsStepChildren p cs pats
              omega
          omega
        have hcnt2 : (if n.isDir = true then c else c + 1) +
            ((rest ++ nodeChildren p pats n).map (fun e => fCnt pats e.1 e.2)).sum
              < MAX_FILES := by
          rw [List.map_append, List.sum_append]
          cases n with
          | file nm =>
            have h6 : fCnt pats p (FS.file nm) = 1 := rfl
            rw [h6] at hcnt
            have h8 : ((nodeChildren p pats (FS.file nm)).map
              (fun e => fCnt pats e.1 e.2)).sum = 0 := rfl
            rw [h8]
            show (if false = true then c else c + 1) + _ < _
            have h9 : (if false = true then c else c + 1) = c + 1 := rfl
            rw [h9]
            omega
          | dirFail nm =>
            have h6 : fCnt pats p (FS.dirFail nm) = 0 := rfl
            rw [h6] at hcnt
            have h8 : ((nodeChildren p pats (FS.dirFail nm)).map
              (fun e => fCnt pats e.1 e.2)).sum = 0 := rfl
            rw [h8]
            show (if true = true then c else c + 1) + _ < _
            have h9 : (if true = true then c else c + 1) = c := rfl
            rw [h9]
            omega
          | dir nm cs =>
            have h6 : fCnt pats p (FS.dir nm cs) = fCntL pats p cs := rfl
            rw [h6] at hcnt
            have h8 : ((nodeChildren p pats (FS.dir nm cs)).map
                (fun e => fCnt pats e.1 e.2)).sum = fCntL pats p cs := by
              show ((lsStepChildren p cs pats).map (fun e => fCnt pats e.1 e.2)).sum = _
              exact fCnt_children_sum pats p cs
            rw [h8]
            show (if true = true then c else c + 1) + _ < _
            have h9 : (if true = true then c else c + 1) = c := rfl
            rw [h9]
            omega
        rcases List.mem_cons.mp he with he0 | he0
        · subst he0
          cases hdesc with
          | refl => exact List.mem_cons_self _ _
          | step hcm hks hrest2 =>
            refine List.mem_cons_of_mem _ ?_
            refine ih _ _ _ hq2 hfuel2 hcnt2 _ ?_ tgt hrest2
            refine List.mem_append_right rest ?_
            exact lsStepChildren_mem_of hcm hks
        · refine List.mem_cons_of_mem _ ?_
          exact ih _ _ _ hq2 hfuel2 hcnt2 e (List.mem_append_left _ he0) tgt hdesc

theorem bool_false_ne_true : ¬ (false = true) := fun h => Bool.noConfusion h

/-- Claim C1 (amended): when the tree holds fewer visible files than the
cap, the scan never stops early: every visible file appears among the
entries, and the number of entries equals the exact visible-entry count.
The truncation flag, however, is computed from the total entry count —
files and directories together (`len(all_paths) >= MAX_FILES`) — so the
flag is false and the banner absent when that total is below the cap. -/
theorem claim_C1_amended (fs : FS) (r : Str) (pats : List Str)
    (hwf : FS.wfB fs = true) (hr : r ≠ []) (hd : FS.isDir fs = true)
    (hfiles : fTop fs r pats < MAX_FILES) :
    (∀ p nm, ReachEntry fs r pats p (FS.file nm) →
        relpathUnder p r ∈ listDirectory fs r pats) ∧
    (listDirectory fs r pats).length = eTop fs r pats ∧
    (eTop fs r pats < MAX_FILES →
      scanTruncated fs r pats = false ∧
      forward (some fs) r pats = printTree (createFileTree (listDirectory fs r pats)) r) := by
  have hlen : (listDirectory fs r pats).length = eTop fs r pats := by
    rw [listDirectory_unfold, isort_length]
    unfold eTop
    by_cases hskip : shouldSkip r pats = true
    · rw [if_pos hskip, if_pos hskip]
      rfl
    · rw [if_neg hskip, if_neg hskip]
      cases fs with
      | file nm => exact Bool.noConfusion hd
      | dirFail nm => rfl
      | dir nm cs =>
        have hqs : qSize (lsStepChildren r cs pats) ≤ FS.size (FS.dir nm cs) - 1 := by
          have h3 := qSize_lsStepChildren r cs pats
          have h4 : FS.size (FS.dir nm cs) = 1 + FS.sizeL cs := rfl
          omega
        have hcnt : (0 : Nat) + ((lsStepChildren r cs pats).map
            (fun e => fCnt pats e.1 e.2)).sum < MAX_FILES := by
          rw [fCnt_children_sum]
          have h5 : fTop (FS.dir nm cs) r pats = fCntL pats r cs := by
            unfold fTop
            rw [if_neg hskip]
          rw [h5] at hfiles
          omega
        rw [lsLoop_length hwf hr _ _ (childSegs r pats [] (FS.dir nm cs)) 0
          (root_children_inv hwf) hqs hcnt]
        show ((lsStepChildren r cs pats).map (fun e => eCnt pats e.1 e.2)).sum
          = eCntL pats r cs
        exact eCnt_children_sum pats r cs
  refine ⟨?_, hlen, ?_⟩
  · intro p nm hre
    rcases hre with ⟨hskr, hdesc⟩
    rw [listDirectory_unfold, isort_mem,
      if_neg (by rw [hskr]; exact bool_false_ne_true)]
    cases hdesc with
    | refl => exact Bool.noConfusion hd
    | step hcm hks hrest2 =>
      next nm2 cs2 c2 =>
        have hqs : qSize (lsStepChildren r cs2 pats) ≤ FS.size (FS.dir nm2 cs2) - 1 := by
          have h3 := qSize_lsStepChildren r cs2 pats
          have h4 : FS.size (FS.dir nm2 cs2) = 1 + FS.sizeL cs2 := rfl
          omega
        have hcnt : (0 : Nat) + ((lsStepChildren r cs2 pats).map
            (fun e => fCnt pats e.1 e.2)).sum < MAX_FILES := by
          rw [fCnt_children_sum]
          have h5 : fTop (FS.dir nm2 cs2) r pats = fCntL pats r cs2 := by
            unfold fTop
            rw [if_neg (by rw [hskr]; exact bool_false_ne_true)]
          rw [h5] at hfiles
          omega
        have happ := lsLoop_complete hwf hr (FS.size (FS.dir nm2 cs2) - 1)
          (lsStepChildren r cs2 pats) (childSegs r pats [] (FS.dir nm2 cs2)) 0
          (root_children_inv hwf) hqs hcnt _ (lsStepChildren_mem_of hcm hks) _ hrest2
        exact happ
  · intro he
    have hflag : scanTruncated fs r pats = false := by
      unfold scanTruncated
      rw [hlen]
      exact decide_eq_false (by omega)
    refine ⟨hflag, ?_⟩
    rw [forward_some_eq]
    have h1 : (!fs.isDir) = false := by rw [hd]; rfl
    rw [h1, if_neg bool_false_ne_true, hflag, if_neg bool_false_ne_true, List.nil_append]

theorem claim_C1_witness :
    FS.wfB fsA = true ∧ strOf "/r" ≠ ([] : Str) ∧ FS.isDir fsA = true ∧
    fTop fsA (strOf "/r") [] < MAX_FILES ∧
    ((∀ p nm, ReachEntry fsA (strOf "/r") [] p (FS.file nm) →
        relpathUnder p (strOf "/r") ∈ listDirectory fsA (strOf "/r") []) ∧
      (listDirectory fsA (strOf "/r") []).length = eTop fsA (strOf "/r") [] ∧
      (eTop fsA (strOf "/r") [] < MAX_FILES →
        scanTruncated fsA (strOf "/r") [] = false ∧
        forward (some fsA) (strOf "/r") [] =
          printTree (createFileTree (listDirectory fsA (strOf "/r") [])) (strOf "/r"))) :=
  ⟨by decide, by decide, by decide, by decide,
    claim_C1_amended fsA (strOf "/r") [] (by decide) (by decide) (by decide) (by decide)⟩

/-! Flat-directory machinery: the fixtures with a thousand-plus children are
far beyond what the kernel can evaluate, so their scans are computed through
general lemmas about queues of childless elements. -/

theorem char_ofNat_toNat {n : Nat} (h : n < 55296) : (Char.ofNat n).toNat = n := by
  have hv : n.isValidChar := Or.inl h
  rw [Char.ofNat, dif_pos hv]
  rfl

theorem fchar_toNat (i : Nat) (h : i < 50000) : (fchar i).toNat = 5000 + i := by
  unfold fchar
  exact char_ofNat_toNat (by omega)

theorem fchar_beq_slash (i : Nat) (h : i < 50000) : (fchar i == '/') = false := by
  refine beq_eq_false_iff_ne.mpr ?_
  intro he
  have h1 := fchar_toNat i h
  rw [he] at h1
  have h2 : ('/' : Char).toNat = 47 := rfl
  rw [h2] at h1
  omega

theorem leadsWith_append (s t : Str) : leadsWith s (s ++ t) = true := by
  induction s with
  | nil => rfl
  | cons c cs ih => simp [leadsWith, ih]

theorem hasSub_false_of_head {s0 : Char} (srest : Str) :
    ∀ p : Str, (∀ c ∈ p, (s0 == c) = false) → hasSub p (s0 :: srest) = false := by
  intro p
  induction p with
  | nil => intro _; rfl
  | cons c rest ih =>
    intro h
    show (leadsWith (s0 :: srest) (c :: rest) || hasSub rest (s0 :: srest)) = false
    rw [ih (fun x hx => h x (List.mem_cons_of_mem c hx))]
    show ((s0 == c) && leadsWith srest rest || false) = false
    rw [h c (List.mem_cons_self c rest), Bool.false_and, Bool.or_false]

theorem rstripSlash_single (c : Char) (hc : (c == '/') = false) :
    rstripSlash (strOf "/r/" ++ [c]) = strOf "/r/" ++ [c] := by
  have h1 : strOf "/r/" ++ [c] = ['/', 'r', '/'] ++ [c] := rfl
  rw [h1]
  unfold rstripSlash
  rw [List.reverse_append]
  simp [List.dropWhile_cons, hc]

theorem basenameOf_single (c : Char) (hc : (c == '/') = false) :
    basenameOf (strOf "/r/" ++ [c]) = [c] := by
  have h1 : strOf "/r/" ++ [c] = ['/', 'r', '/'] ++ [c] := rfl
  rw [h1]
  unfold basenameOf
  rw [List.reverse_append]
  simp [List.takeWhile_cons, bne, hc]

theorem shouldSkip_single (c : Char) (h5 : 5000 ≤ c.toNat) :
    shouldSkip (strOf "/r/" ++ [c]) [] = false := by
  have hslash : (c == '/') = false := beq_eq_false_iff_ne.mpr (by
    intro he
    rw [he] at h5
    exact absurd h5 (by decide))
  have hdot : (c == '.') = false := beq_eq_false_iff_ne.mpr (by
    intro he
    rw [he] at h5
    exact absurd h5 (by decide))
  have hund : (('_' : Char) == c) = false := beq_eq_false_iff_ne.mpr (by
    intro he
    rw [← he] at h5
    exact absurd h5 (by decide))
  have h1 := rstripSlash_single c hslash
  have h2 := basenameOf_single c hslash
  have h3 : hiddenName [c] = false := by
    have h3a : hiddenName [c] = ((c == '.') && ([c] != ['.'])) := rfl
    rw [h3a, hdot, Bool.false_and]
  have h4 : ([c] == PYCACHE) = false := beq_eq_false_iff_ne.mpr (by
    intro he
    have hP : PYCACHE = '_' :: strOf "_pycache__" := rfl
    rw [hP] at he
    injection he with he1 he2
    exact List.noConfusion he2)
  have h6 : hasSub (strOf "/r/" ++ [c]) (PYCACHE ++ ['/']) = false := by
    have hP : PYCACHE ++ ['/'] = '_' :: strOf "_pycache__/" := rfl
    rw [hP]
    refine hasSub_false_of_head (strOf "_pycache__/") _ ?_
    intro x hx
    have h7 : strOf "/r/" ++ [c] = '/' :: 'r' :: '/' :: [c] := rfl
    rw [h7] at hx
    simp only [List.mem_cons, List.not_mem_nil, or_false] at hx
    rcases hx with rfl | rfl | rfl | rfl
    · decide
    · decide
    · decide
    · exact hund
  simp [shouldSkip, h1, h2, h3, h4, h6]

theorem path_ne_root (c : Char) : ((strOf "/r/" ++ [c]) == strOf "/r") = false := by
  refine beq_eq_false_iff_ne.mpr ?_
  intro he
  have h7 : strOf "/r/" ++ [c] = '/' :: 'r' :: '/' :: [c] := rfl
  have h8 : strOf "/r" = ['/', 'r'] := rfl
  rw [h7, h8] at he
  simp at he

theorem strLeL_head {a b : Char} (h : a.toNat < b.toNat) (s t : Str) :
    strLeL (a :: s) (b :: t) = true := by
  have h1 : strLtL (b :: t) (a :: s) = false := by
    show (decide (b.toNat < a.toNat) || ((b == a) && strLtL t s)) = false
    rw [decide_eq_false (by omega), Bool.false_or,
      beq_eq_false_iff_ne.mpr (fun he => by rw [he] at h; omega), Bool.false_and]
  show (!strLtL (b :: t) (a :: s)) = true
  rw [h1]
  rfl

theorem nodeChildren_flat {p : Str} {pats : List Str} {n : FS} (h : flatElem n) :
    nodeChildren p pats n = [] := by
  cases n with
  | file nm => rfl
  | dirFail nm => rfl
  | dir nm cs =>
    have hcs : cs = [] := h
    subst hcs
    rfl

/-- A queue of childless, unskipped, non-root elements runs as `flatRun`
with the remaining budget. -/
theorem lsLoopF_flat (r : Str) (pats : List Str) :
    ∀ (q : List (Str × FS)) (fuel c : Nat),
      q.length ≤ fuel → c ≤ MAX_FILES →
      (∀ e ∈ q, shouldSkip e.1 pats = false) →
      (∀ e ∈ q, (e.1 == r) = false) →
      (∀ e ∈ q, flatElem e.2) →
      lsLoopF r pats fuel q c = flatRun r q (MAX_FILES - c) := by
  intro q
  induction q with
  | nil =>
    intro fuel c _ _ _ _ _
    rw [lsLoopF_nil]
    rfl
  | cons e rest ih =>
    intro fuel c hfuel hc hskip hnr hflat
    rcases e with ⟨p, n⟩
    cases fuel with
    | zero =>
      rw [List.length_cons] at hfuel
      exact absurd hfuel (by omega)
    | succ fuel =>
      by_cases hlt : c < MAX_FILES
      · have hskip0 := hskip _ (List.mem_cons_self (p, n) rest)
        have hnr0 := hnr _ (List.mem_cons_self (p, n) rest)
        have hflat0 := hflat _ (List.mem_cons_self (p, n) rest)
        rw [lsLoopF_cons_eq fuel n rest hlt hskip0 hnr0,
          nodeChildren_flat hflat0, List.append_nil]
        have hlen : rest.length ≤ fuel := by
          rw [List.length_cons] at hfuel
          omega
        have hrec := fun (c' : Nat) (hc' : c' ≤ MAX_FILES) => ih fuel c' hlen hc'
          (fun x hx => hskip x (List.mem_cons_of_mem _ hx))
          (fun x hx => hnr x (List.mem_cons_of_mem _ hx))
          (fun x hx => hflat x (List.mem_cons_of_mem _ hx))
        have hb0 : ¬ (MAX_FILES - c = 0) := by omega
        cases hd : n.isDir with
        | false =>
          show entryR r (p, n) :: lsLoopF r pats fuel rest (c + 1)
              = flatRun r ((p, n) :: rest) (MAX_FILES - c)
          have hsplit : flatRun r ((p, n) :: rest) (MAX_FILES - c)
              = entryR r (p, n) :: flatRun r rest (MAX_FILES - c - 1) := by
            show (if MAX_FILES - c = 0 then []
              else entryR r (p, n) ::
                flatRun r rest (if n.isDir then MAX_FILES - c else MAX_FILES - c - 1)) = _
            rw [if_neg hb0, hd]
            rfl
          have hsub : MAX_FILES - c - 1 = MAX_FILES - (c + 1) := by omega
          rw [hsplit, hsub, hrec (c + 1) (by omega)]
        | true =>
          show entryR r (p, n) :: lsLoopF r pats fuel rest c
              = flatRun r ((p, n) :: rest) (MAX_FILES - c)
          have hsplit : flatRun r ((p, n) :: rest) (MAX_FILES - c)
              = entryR r (p, n) :: flatRun r rest (MAX_FILES - c) := by
            show (if MAX_FILES - c = 0 then []
              else entryR r (p, n) ::
                flatRun r rest (if n.isDir then MAX_FILES - c else MAX_FILES - c - 1)) = _
            rw [if_neg hb0, hd]
            rfl
          rw [hsplit, hrec c (by omega)]
      · have hc0 : MAX_FILES - c = 0 := by omega
        rw [lsLoopF_stop fuel (p, n) rest hlt, hc0]
        rfl

theorem flatRun_files (r : Str) :
    ∀ (q : List (Str × FS)) (b : Nat), (∀ e ∈ q, e.2.isDir = false) →
      flatRun r q b = (q.take b).map (entryR r) := by
  intro q
  induction q with
  | nil =>
    intro b _
    cases b <;> rfl
  | cons e rest ih =>
    intro b hq
    cases b with
    | zero => rfl
    | succ b =>
      have h1 : flatRun r (e :: rest) (b + 1)
          = entryR r e :: flatRun r rest (if e.2.isDir then b + 1 else b + 1 - 1) := by
        show (if b + 1 = 0 then [] else _) = _
        rw [if_neg (Nat.succ_ne_zero b)]
      rw [h1, hq e (List.mem_cons_self e rest)]
      show entryR r e :: flatRun r rest b = entryR r e :: (rest.take b).map (entryR r)
      rw [ih b (fun x hx => hq x (List.mem_cons_of_mem e hx))]

theorem flatRun_dirs (r : Str) :
    ∀ (q : List (Str × FS)) (b : Nat), (∀ e ∈ q, e.2.isDir = true) → b ≠ 0 →
      flatRun r q b = q.map (entryR r) := by
  intro q
  induction q with
  | nil => intro b _ _; rfl
  | cons e rest ih =>
    intro b hq hb
    have h1 : flatRun r (e :: rest) b
        = entryR r e :: flatRun r rest (if e.2.isDir then b else b - 1) := by
      show (if b = 0 then [] else _) = _
      rw [if_neg hb]
    rw [h1, hq e (List.mem_cons_self e rest)]
    show entryR r e :: flatRun r rest b = entryR r e :: rest.map (entryR r)
    rw [ih b (fun x hx => hq x (List.mem_cons_of_mem e hx)) hb]

theorem flatRun_append_dirs (r : Str) :
    ∀ (A B : List (Str × FS)) (b : Nat), (∀ e ∈ A, e.2.isDir = true) → b ≠ 0 →
      flatRun r (A ++ B) b = A.map (entryR r) ++ flatRun r B b := by
  intro A
  induction A with
  | nil => intro B b _ _; rfl
  | cons e rest ih =>
    intro B b hA hb
    have h1 : flatRun r ((e :: rest) ++ B) b
        = entryR r e :: flatRun r (rest ++ B) (if e.2.isDir then b else b - 1) := by
      show (if b = 0 then [] else _) = _
      rw [if_neg hb]
      rfl
    rw [h1, hA e (List.mem_cons_self e rest)]
    show entryR r e :: flatRun r (rest ++ B) b
        = entryR r e :: (rest.map (entryR r) ++ flatRun r B b)
    rw [ih B b (fun x hx => hA x (List.mem_cons_of_mem e hx)) hb]

/-- The sorted, filtered children queue for a root whose children carry the
single-character names `fchar i` along a strictly increasing index list. -/
theorem lsStep_names (mk : Nat → FS) (l : List Nat)
    (hl : List.Pairwise (fun i j => i < j) l) (hb : ∀ i ∈ l, i < 50000)
    (hname : ∀ i ∈ l, (mk i).name = [fchar i]) :
    lsStepChildren (strOf "/r") (l.map mk) []
      = l.map (fun i => (strOf "/r/" ++ [fchar i], mk i)) := by
  unfold lsStepChildren
  have hmap : (l.map mk).map (fun c => (pjoin (strOf "/r") c.name, c))
      = l.map (fun i => (strOf "/r/" ++ [fchar i], mk i)) := by
    rw [List.map_map]
    refine List.map_congr_left ?_
    intro i hi
    show (pjoin (strOf "/r") (mk i).name, mk i) = (strOf "/r/" ++ [fchar i], mk i)
    rw [hname i hi]
    rfl
  rw [hmap]
  have hpw : (l.map (fun i => (strOf "/r/" ++ [fchar i], mk i))).Pairwise
      (fun a b => strLeL a.1 b.1 = true) := by
    rw [List.pairwise_map]
    refine hl.imp_of_mem ?_
    intro a b ha hb2 hab
    show strLeL (strOf "/r/" ++ [fchar a]) (strOf "/r/" ++ [fchar b]) = true
    rw [strLeL_append_same]
    refine strLeL_head ?_ [] []
    rw [fchar_toNat a (by have := hb a ha; omega), fchar_toNat b (by have := hb b hb2; omega)]
    omega
  rw [isort_of_pairwise hpw]
  refine List.filter_eq_self.mpr ?_
  intro e he
  rcases List.mem_map.mp he with ⟨i, hi, rfl⟩
  show (!shouldSkip (strOf "/r/" ++ [fchar i]) []) = true
  rw [shouldSkip_single (fchar i) (by rw [fchar_toNat i (by have := hb i hi; omega)]; omega)]
  rfl

theorem sizeL_map_one (mk : Nat → FS) (l : List Nat) (h : ∀ i ∈ l, FS.size (mk i) = 1) :
    FS.sizeL (l.map mk) = l.length := by
  induction l with
  | nil => rfl
  | cons a as ih =>
    show FS.size (mk a) + FS.sizeL (as.map mk) = _
    rw [h a (List.mem_cons_self a as), ih (fun i hi => h i (List.mem_cons_of_mem a hi)),
      List.length_cons]
    omega

theorem entryR_dir (c : Char) (hc : (c == '/') = false) (n : FS) (hd : n.isDir = true) :
    entryR (strOf "/r") (strOf "/r/" ++ [c], n) = [c, '/'] := by
  show (if n.isDir then (if endsSlash [c] then [c] else [c] ++ ['/']) else [c]) = [c, '/']
  rw [hd]
  show (if true = true then (if endsSlash [c] then [c] else [c] ++ ['/']) else [c]) = [c, '/']
  rw [if_pos rfl]
  show (if (c == '/') = true then [c] else [c] ++ ['/']) = [c, '/']
  rw [hc]
  rfl

theorem sizeL_append (xs ys : List FS) : FS.sizeL (xs ++ ys) = FS.sizeL xs + FS.sizeL ys := by
  rw [sizeL_eq_sum, sizeL_eq_sum, sizeL_eq_sum, List.map_append, List.sum_append]

/-- The scan of the flat 1200-file fixture: the first 1000 files, in order. -/
theorem listDirectory_flat1200 :
    listDirectory flat1200 (strOf "/r") [] = (List.range 1000).map (fun i => [fchar i]) := by
  have hch : nodeChildren (strOf "/r") [] flat1200
      = lsStepChildren (strOf "/r") ((List.range 1200).map (fun i => FS.file [fchar i])) [] := rfl
  have hstep := lsStep_names (fun i => FS.file [fchar i]) (List.range 1200)
    (List.pairwise_lt_range 1200)
    (fun i hi => by have := List.mem_range.mp hi; omega)
    (fun i _ => rfl)
  have hsz : FS.size flat1200 = 1201 := by
    show 1 + FS.sizeL ((List.range 1200).map (fun i => FS.file [fchar i])) = 1201
    rw [sizeL_map_one (fun i => FS.file [fchar i]) (List.range 1200) (fun i _ => rfl),
      List.length_range]
  have hflat : lsLoopF (strOf "/r") [] 1200
      ((List.range 1200).map (fun i => (strOf "/r/" ++ [fchar i], FS.file [fchar i]))) 0
      = flatRun (strOf "/r")
        ((List.range 1200).map (fun i => (strOf "/r/" ++ [fchar i], FS.file [fchar i])))
        (MAX_FILES - 0) := by
    refine lsLoopF_flat (strOf "/r") [] _ 1200 0 (by simp) (Nat.zero_le _) ?_ ?_ ?_
    · intro e he
      rcases List.mem_map.mp he with ⟨i, hi, rfl⟩
      exact shouldSkip_single (fchar i)
        (by rw [fchar_toNat i (by have := List.mem_range.mp hi; omega)]; omega)
    · intro e he
      rcases List.mem_map.mp he with ⟨i, hi, rfl⟩
      exact path_ne_root (fchar i)
    · intro e he
      rcases List.mem_map.mp he with ⟨i, hi, rfl⟩
      exact True.intro
  have hrun : flatRun (strOf "/r")
      ((List.range 1200).map (fun i => (strOf "/r/" ++ [fchar i], FS.file [fchar i])))
      (MAX_FILES - 0) = (List.range 1000).map (fun i => [fchar i]) := by
    rw [flatRun_files (strOf "/r") _ (MAX_FILES - 0) (by
      intro e he
      rcases List.mem_map.mp he with ⟨i, hi, rfl⟩
      rfl)]
    have hM : MAX_FILES - 0 = 1000 := rfl
    rw [hM, ← List.map_take, List.take_range, show min 1000 1200 = 1000 from by omega,
      List.map_map]
    rfl
  have hpw : ((List.range 1000).map (fun i => [fchar i])).Pairwise
      (fun a b => strLeL a b = true) := by
    rw [List.pairwise_map]
    refine (List.pairwise_lt_range 1000).imp_of_mem ?_
    intro a b ha hb hab
    refine strLeL_head ?_ [] []
    rw [fchar_toNat a (by have := List.mem_range.mp ha; omega),
      fchar_toNat b (by have := List.mem_range.mp hb; omega)]
    omega
  rw [listDirectory_unfold, if_neg (by decide), hch, hstep,
    show FS.size flat1200 - 1 = 1200 from by rw [hsz], hflat, hrun]
  exact isort_of_pairwise hpw

/-- The scan of the 1000-empty-directory fixture: all 1000 directory
entries, slash-suffixed. -/
theorem listDirectory_dirs1000 :
    listDirectory dirs1000 (strOf "/r") []
      = (List.range 1000).map (fun i => [fchar i, '/']) := by
  have hch : nodeChildren (strOf "/r") [] dirs1000
      = lsStepChildren (strOf "/r") ((List.range 1000).map (fun i => FS.dir [fchar i] [])) [] := rfl
  have hstep := lsStep_names (fun i => FS.dir [fchar i] []) (List.range 1000)
    (List.pairwise_lt_range 1000)
    (fun i hi => by have := List.mem_range.mp hi; omega)
    (fun i _ => rfl)
  have hsz : FS.size dirs1000 = 1001 := by
    show 1 + FS.sizeL ((List.range 1000).map (fun i => FS.dir [fchar i] [])) = 1001
    rw [sizeL_map_one (fun i => FS.dir [fchar i] []) (List.range 1000) (fun i _ => rfl),
      List.length_range]
  have hflat : lsLoopF (strOf "/r") [] 1000
      ((List.range 1000).map (fun i => (strOf "/r/" ++ [fchar i], FS.dir [fchar i] []))) 0
      = flatRun (strOf "/r")
        ((List.range 1000).map (fun i => (strOf "/r/" ++ [fchar i], FS.dir [fchar i] [])))
        (MAX_FILES - 0) := by
    refine lsLoopF_flat (strOf "/r") [] _ 1000 0 (by simp) (Nat.zero_le _) ?_ ?_ ?_
    · intro e he
      rcases List.mem_map.mp he with ⟨i, hi, rfl⟩
      exact shouldSkip_single (fchar i)
        (by rw [fchar_toNat i (by have := List.mem_range.mp hi; omega)]; omega)
    · intro e he
      rcases List.mem_map.mp he with ⟨i, hi, rfl⟩
      exact path_ne_root (fchar i)
    · intro e he
      rcases List.mem_map.mp he with ⟨i, hi, rfl⟩
      exact rfl
  have hrun : flatRun (strOf "/r")
      ((List.range 1000).map (fun i => (strOf "/r/" ++ [fchar i], FS.dir [fchar i] [])))
      (MAX_FILES - 0) = (List.range 1000).map (fun i => [fchar i, '/']) := by
    rw [flatRun_dirs (strOf "/r") _ (MAX_FILES - 0) (by
        intro e he
        rcases List.mem_map.mp he with ⟨i, hi, rfl⟩
        rfl)
      (by decide), List.map_map]
    refine List.map_congr_left ?_
    intro i hi
    exact entryR_dir (fchar i)
      (fchar_beq_slash i (by have := List.mem_range.mp hi; omega)) _ rfl
  have hpw : ((List.range 1000).map (fun i => [fchar i, '/'])).Pairwise
      (fun a b => strLeL a b = true) := by
    rw [List.pairwise_map]
    refine (List.pairwise_lt_range 1000).imp_of_mem ?_
    intro a b ha hb hab
    refine strLeL_head ?_ ['/'] ['/']
    rw [fchar_toNat a (by have := List.mem_range.mp ha; omega),
      fchar_toNat b (by have := List.mem_range.mp hb; omega)]
    omega
  rw [listDirectory_unfold, if_neg (by decide), hch, hstep,
    show FS.size dirs1000 - 1 = 1000 from by rw [hsz], hflat, hrun]
  exact isort_of_pairwise hpw

/-- No file entries below a level of empty directories. -/
theorem fCntL_dirs (pats : List Str) (p : Str) (l : List Nat) :
    fCntL pats p (l.map (fun i => FS.dir [fchar i] [])) = 0 := by
  induction l with
  | nil => rfl
  | cons a as ih =>
    show (if shouldSkip (pjoin p [fchar a]) pats = true then 0
        else fCnt pats (pjoin p [fchar a]) (FS.dir [fchar a] []))
      + fCntL pats p (as.map (fun i => FS.dir [fchar i] [])) = 0
    rw [ih]
    have h0 : fCnt pats (pjoin p [fchar a]) (FS.dir [fchar a] []) = 0 := rfl
    rw [h0, ite_self]

/-- The scan of the fixture with 1000 empty directories and one file: all
1001 entries are returned, because only the one file consumed budget. -/
theorem listDirectory_mixed1001 :
    listDirectory mixed1001 (strOf "/r") []
      = (List.range 1000).map (fun i => [fchar i, '/']) ++ [[fchar 1100]] := by
  have hch : nodeChildren (strOf "/r") [] mixed1001
      = lsStepChildren (strOf "/r")
          ((List.range 1000).map (fun i => FS.dir [fchar i] []) ++ [FS.file [fchar 1100]]) [] := rfl
  have hC : (List.range 1000).map (fun i => FS.dir [fchar i] []) ++ [FS.file [fchar 1100]]
      = (List.range 1000 ++ [1100]).map
          (fun i => if i < 1000 then FS.dir [fchar i] [] else FS.file [fchar i]) := by
    have hA : (List.range 1000).map
        (fun i => if i < 1000 then FS.dir [fchar i] [] else FS.file [fchar i])
        = (List.range 1000).map (fun i => FS.dir [fchar i] []) := by
      refine List.map_congr_left ?_
      intro i hi
      have hlt : i < 1000 := List.mem_range.mp hi
      show (if i < 1000 then FS.dir [fchar i] [] else FS.file [fchar i]) = FS.dir [fchar i] []
      rw [if_pos hlt]
    have hB : ([1100] : List Nat).map
        (fun i => if i < 1000 then FS.dir [fchar i] [] else FS.file [fchar i])
        = [FS.file [fchar 1100]] := by
      show [if 1100 < 1000 then FS.dir [fchar 1100] [] else FS.file [fchar 1100]] = _
      rw [if_neg (by omega)]
    rw [List.map_append, hA, hB]
  have hmem : ∀ i ∈ List.range 1000 ++ [1100], i < 50000 := by
    intro i hi
    rcases List.mem_append.mp hi with h | h
    · have := List.mem_range.mp h
      omega
    · rw [List.mem_singleton.mp h]
      omega
  have hl : List.Pairwise (fun i j => i < j) (List.range 1000 ++ [1100]) := by
    rw [List.pairwise_append]
    refine ⟨List.pairwise_lt_range 1000, List.pairwise_singleton _ _, ?_⟩
    intro a ha b hb
    have h1 := List.mem_range.mp ha
    rw [List.mem_singleton.mp hb]
    omega
  have hstep := lsStep_names
    (fun i => if i < 1000 then FS.dir [fchar i] [] else FS.file [fchar i])
    (List.range 1000 ++ [1100]) hl hmem
    (by
      intro i hi
      show (if i < 1000 then FS.dir [fchar i] [] else FS.file [fchar i]).name = [fchar i]
      by_cases h : i < 1000
      · rw [if_pos h]
        rfl
      · rw [if_neg h]
        rfl)
  have hQsplit : (List.range 1000 ++ [1100]).map
      (fun i => (strOf "/r/" ++ [fchar i],
        if i < 1000 then FS.dir [fchar i] [] else FS.file [fchar i]))
      = (List.range 1000).map (fun i => (strOf "/r/" ++ [fchar i], FS.dir [fchar i] []))
        ++ [(strOf "/r/" ++ [fchar 1100], FS.file [fchar 1100])] := by
    have hA : (List.range 1000).map (fun i => (strOf "/r/" ++ [fchar i],
        if i < 1000 then FS.dir [fchar i] [] else FS.file [fchar i]))
        = (List.range 1000).map (fun i => (strOf "/r/" ++ [fchar i], FS.dir [fchar i] [])) := by
      refine List.map_congr_left ?_
      intro i hi
      have hlt : i < 1000 := List.mem_range.mp hi
      show (strOf "/r/" ++ [fchar i],
          if i < 1000 then FS.dir [fchar i] [] else FS.file [fchar i])
        = (strOf "/r/" ++ [fchar i], FS.dir [fchar i] [])
      rw [if_pos hlt]
    have hB : ([1100] : List Nat).map (fun i => (strOf "/r/" ++ [fchar i],
        if i < 1000 then FS.dir [fchar i] [] else FS.file [fchar i]))
        = [(strOf "/r/" ++ [fchar 1100], FS.file [fchar 1100])] := by
      show [(strOf "/r/" ++ [fchar 1100],
          if 1100 < 1000 then FS.dir [fchar 1100] [] else FS.file [fchar 1100])] = _
      rw [if_neg (by omega)]
    rw [List.map_append, hA, hB]
  have hsz : FS.size mixed1001 = 1002 := by
    show 1 + FS.sizeL ((List.range 1000).map (fun i => FS.dir [fchar i] [])
      ++ [FS.file [fchar 1100]]) = 1002
    rw [sizeL_append,
      sizeL_map_one (fun i => FS.dir [fchar i] []) (List.range 1000) (fun i _ => rfl),
      List.length_range]
    rfl
  have hflat : lsLoopF (strOf "/r") [] 1001
      ((List.range 1000).map (fun i => (strOf "/r/" ++ [fchar i], FS.dir [fchar i] []))
        ++ [(strOf "/r/" ++ [fchar 1100], FS.file [fchar 1100])]) 0
      = flatRun (strOf "/r")
        ((List.range 1000).map (fun i => (strOf "/r/" ++ [fchar i], FS.dir [fchar i] []))
          ++ [(strOf "/r/" ++ [fchar 1100], FS.file [fchar 1100])])
        (MAX_FILES - 0) := by
    refine lsLoopF_flat (strOf "/r") [] _ 1001 0 (by simp) (Nat.zero_le _) ?_ ?_ ?_
    · intro e he
      rcases List.mem_append.mp he with h | h
      · rcases List.mem_map.mp h with ⟨i, hi, rfl⟩
        exact shouldSkip_single (fchar i)
          (by rw [fchar_toNat i (by have := List.mem_range.mp hi; omega)]; omega)
      · rw [List.mem_singleton.mp h]
        exact shouldSkip_single (fchar 1100) (by rw [fchar_toNat 1100 (by omega)]; omega)
    · intro e he
      rcases List.mem_append.mp he with h | h
      · rcases List.mem_map.mp h with ⟨i, hi, rfl⟩
        exact path_ne_root (fchar i)
      · rw [List.mem_singleton.mp h]
        exact path_ne_root (fchar 1100)
    · intro e he
      rcases List.mem_append.mp he with h | h
      · rcases List.mem_map.mp h with ⟨i, hi, rfl⟩
        exact rfl
      · rw [List.mem_singleton.mp h]
        exact True.intro
  have hrun : flatRun (strOf "/r")
      ((List.range 1000).map (fun i => (strOf "/r/" ++ [fchar i], FS.dir [fchar i] []))
        ++ [(strOf "/r/" ++ [fchar 1100], FS.file [fchar 1100])])
      (MAX_FILES - 0)
      = (List.range 1000).map (fun i => [fchar i, '/']) ++ [[fchar 1100]] := by
    rw [flatRun_append_dirs (strOf "/r") _ _ (MAX_FILES - 0) (by
        intro e he
        rcases List.mem_map.mp he with ⟨i, hi, rfl⟩
        rfl)
      (by decide)]
    have htail : flatRun (strOf "/r")
        [(strOf "/r/" ++ [fchar 1100], FS.file [fchar 1100])] (MAX_FILES - 0)
        = [[fchar 1100]] := by
      show (if MAX_FILES - 0 = 0 then [] else _) = _
      rw [if_neg (by decide)]
      rfl
    rw [htail, List.map_map]
    refine congrArg (fun t => t ++ [[fchar 1100]]) ?_
    refine List.map_congr_left ?_
    intro i hi
    exact entryR_dir (fchar i)
      (fchar_beq_slash i (by have := List.mem_range.mp hi; omega)) _ rfl
  have hpw : ((List.range 1000).map (fun i => [fchar i, '/']) ++ [[fchar 1100]]).Pairwise
      (fun a b => strLeL a b = true) := by
    rw [List.pairwise_append]
    refine ⟨?_, List.pairwise_singleton _ _, ?_⟩
    · rw [List.pairwise_map]
      refine (List.pairwise_lt_range 1000).imp_of_mem ?_
      intro a b ha hb hab
      refine strLeL_head ?_ ['/'] ['/']
      rw [fchar_toNat a (by have := List.mem_range.mp ha; omega),
        fchar_toNat b (by have := List.mem_range.mp hb; omega)]
      omega
    · intro a ha b hb
      rcases List.mem_map.mp ha with ⟨i, hi, rfl⟩
      rw [List.mem_singleton.mp hb]
      refine strLeL_head ?_ ['/'] []
      rw [fchar_toNat i (by have := List.mem_range.mp hi; omega),
        fchar_toNat 1100 (by omega)]
      have := List.mem_range.mp hi
      omega
  rw [listDirectory_unfold, if_neg (by decide), hch, hC, hstep, hQsplit,
    show FS.size mixed1001 - 1 = 1001 from by rw [hsz], hflat, hrun]
  exact isort_of_pairwise hpw

/-- Claim C1 counterexample: the tree of 1000 empty subdirectories holds no
visible file at all, yet `truncated` is computed from the total entry count
(`len(all_paths) >= MAX_FILES`, directories included), so the flag is set
and the truncation banner is prepended to the output — refuting the claimed
"truncated is false and no banner appears regardless of how many directory
entries the tree contains". -/
theorem claim_C1_counterexample :
    fTop dirs1000 (strOf "/r") [] = 0 ∧
    scanTruncated dirs1000 (strOf "/r") [] = true ∧
    forward (some dirs1000) (strOf "/r") [] =
      TRUNCATED_MESSAGE ++
        printTree (createFileTree (listDirectory dirs1000 (strOf "/r") [])) (strOf "/r") ∧
    leadsWith TRUNCATED_MESSAGE (forward (some dirs1000) (strOf "/r") []) = true := by
  have hlen : (listDirectory dirs1000 (strOf "/r") []).length = 1000 := by
    rw [listDirectory_dirs1000, List.length_map, List.length_range]
  have htrunc : scanTruncated dirs1000 (strOf "/r") [] = true := by
    unfold scanTruncated
    rw [hlen]
    decide
  have hfwd : forward (some dirs1000) (strOf "/r") [] =
      TRUNCATED_MESSAGE ++
        printTree (createFileTree (listDirectory dirs1000 (strOf "/r") [])) (strOf "/r") := by
    rw [forward_some_eq]
    have h1 : (!FS.isDir dirs1000) = false := rfl
    rw [h1, if_neg bool_false_ne_true, htrunc, if_pos rfl]
  refine ⟨?_, htrunc, hfwd, ?_⟩
  · have h2 : fTop dirs1000 (strOf "/r") []
        = fCntL [] (strOf "/r") ((List.range 1000).map (fun i => FS.dir [fchar i] [])) := by
      unfold fTop
      rw [if_neg (by decide)]
      rfl
    rw [h2, fCntL_dirs]
  · rw [hfwd]
    exact leadsWith_append _ _

/-- Claim C2: for the flat directory of 1200 visible files and no ignore
patterns, the scan returns exactly 1000 entries, each a file entry (no
directory marker), the result is truncated, and the fixed banner is
prepended to the rendered output before the root line.  Only files consume
the cap: in the fixture with 1000 empty directories and one file sorting
after them, all 1001 entries — the file included — are returned, so the
1000 directory entries did not count against the cap. -/
theorem claim_C2 :
    (listDirectory flat1200 (strOf "/r") []).length = 1000 ∧
    (∀ x ∈ listDirectory flat1200 (strOf "/r") [], endsSlash x = false) ∧
    scanTruncated flat1200 (strOf "/r") [] = true ∧
    forward (some flat1200) (strOf "/r") [] =
      TRUNCATED_MESSAGE ++
        printTree (createFileTree (listDirectory flat1200 (strOf "/r") [])) (strOf "/r") ∧
    (listDirectory mixed1001 (strOf "/r") []).length = 1001 ∧
    [fchar 1100] ∈ listDirectory mixed1001 (strOf "/r") [] := by
  have hlen : (listDirectory flat1200 (strOf "/r") []).length = 1000 := by
    rw [listDirectory_flat1200, List.length_map, List.length_range]
  have htrunc : scanTruncated flat1200 (strOf "/r") [] = true := by
    unfold scanTruncated
    rw [hlen]
    decide
  refine ⟨hlen, ?_, htrunc, ?_, ?_, ?_⟩
  · intro x hx
    rw [listDirectory_flat1200] at hx
    rcases List.mem_map.mp hx with ⟨i, hi, rfl⟩
    have he : endsSlash [fchar i] = (fchar i == '/') := rfl
    rw [he]
    exact fchar_beq_slash i (by have := List.mem_range.mp hi; omega)
  · rw [forward_some_eq]
    have h1 : (!FS.isDir flat1200) = false := rfl
    rw [h1, if_neg bool_false_ne_true, htrunc, if_pos rfl]
  · rw [listDirectory_mixed1001, List.length_append, List.length_map, List.length_range]
    rfl
  · rw [listDirectory_mixed1001]
    exact List.mem_append_right _ (List.mem_singleton_self _)
